import Mathlib

/-!
# Seam carving: minimum-energy seam search and seam application

A shallow embedding of `seam_carving.hpp`.

* `int` values (indices, weights, pixel values read through `static_cast<int>`) are `Int`.
  The one addition on weights, `e_min.weight += e`, goes through a parameter `add`, so
  that the same definitions run with exact integers (`exact_add`) or with the 32-bit
  two's complement addition of `int` (`add32`).
* Memory is explicit.  The DP table is a `dp_table`: an extent and, for each index, either
  a cell or nothing (never written).  Reads and writes are checked; a read or write the
  C++ program has no defined behaviour for ends the run with a `Fault`.
* The statement `delete [] dp` frees the table a call allocated itself. The source reads
  `e_min->weight` for the return value after it; the model keeps the freed table readable,
  so that this read yields the cell's last contents, and records in `seam_run.released`
  that the read was made on a freed table.
* `for` loops are `for_up` and `for_down`, iterating a body over a state.
-/

namespace SeamCarving

/-! ## Faults, cells, results -/

/-- The ways a run leaves defined behaviour. -/
inductive Fault where
  /-- an index past the extent of the DP table -/
  | dp_out_of_bounds
  /-- a DP cell read before anything was written to it -/
  | dp_uninitialised
  /-- `cv::Mat::at` outside `rows x (cols * channels)`, or a matrix of negative extent -/
  | mat_out_of_bounds
  /-- `std::vector::operator[]` outside `[0, size)` -/
  | vec_out_of_bounds
  /-- an iterator range whose first position is past its last -/
  | invalid_range
deriving DecidableEq, Repr

deriving instance DecidableEq for Except

/-- The type `weighted_value<int, int>`: an accumulated `weight` and the coordinate `value`
of the predecessor. -/
structure weighted_int_t where
  weight : Int
  value : Int
deriving DecidableEq, Repr

/-- Modelled from the spec: `operator<` of `weighted_value` (declared in `weighted_value.h`,
not part of the sources) orders cells by their accumulated weight: "the global minimum is
located by a linear scan over this final level", "total cost is the minimum weight found". -/
def weighted_int_t.lt (a b : weighted_int_t) : Bool := decide (a.weight < b.weight)

/-- The struct `path_result`. -/
structure path_result where
  path : List Int
  total_energy : Int
deriving DecidableEq, Repr

/-- A `cv::Mat`: `rows x cols` pixels of `chans` interleaved channels; `data y j` is element
`j` of row `y`, as `at<T>(y, j)` addresses it. -/
structure Mat where
  rows : Nat
  cols : Nat
  chans : Nat
  chans_pos : 0 < chans
  data : Nat → Nat → Int

/-- Checked `image.at<T>(y, j)` as an rvalue. -/
def Mat.at (m : Mat) (y j : Int) : Except Fault Int :=
  if 0 ≤ y ∧ y < m.rows ∧ 0 ≤ j ∧ j < m.cols * m.chans then .ok (m.data y.toNat j.toNat)
  else .error .mat_out_of_bounds

/-- The matrix with element `k` of row `r` holding `v`. -/
def Mat.upd (m : Mat) (r k : Nat) (v : Int) : Mat :=
  { m with data := fun r' k' => if r' = r ∧ k' = k then v else m.data r' k' }

/-- Checked `image.at<T>(y, j) = v`. -/
def Mat.put (m : Mat) (y j : Int) (v : Int) : Except Fault Mat :=
  if 0 ≤ y ∧ y < m.rows ∧ 0 ≤ j ∧ j < m.cols * m.chans then .ok (m.upd y.toNat j.toNat v)
  else .error .mat_out_of_bounds

/-- Channel `c` of the pixel in row `y`, column `x`. -/
def Mat.pixel (m : Mat) (y x c : Nat) : Int := m.data y (m.chans * x + c)

/-- The constructor `cv::Mat result(rows, cols, image.type())`: a matrix with the channel
count of `like`; its elements are unspecified until written (here 0). -/
def Mat.create (rows cols : Int) (like : Mat) : Except Fault Mat :=
  if 0 ≤ rows ∧ 0 ≤ cols then
    .ok { rows := rows.toNat, cols := cols.toNat, chans := like.chans,
          chans_pos := like.chans_pos, data := fun _ _ => 0 }
  else .error .mat_out_of_bounds

/-- A single-channel matrix given by its rows (used for concrete energy maps). -/
def Mat.ofRows (rows cols : Nat) (l : List (List Int)) : Mat :=
  { rows := rows, cols := cols, chans := 1, chans_pos := Nat.one_pos,
    data := fun y x => (l.getD y []).getD x 0 }

/-- The transpose of a single-channel matrix such as an energy map (type `CV_16S`): element
`(y, x)` of the result is element `(x, y)` of `m`. -/
def Mat.transpose (m : Mat) : Mat :=
  { rows := m.cols, cols := m.rows, chans := 1, chans_pos := Nat.one_pos,
    data := fun y x => m.data x y }

/-! ## The DP table and vectors -/

/-- A `weighted_int_t *` with the extent of its allocation. -/
structure dp_table where
  size : Nat
  cell : Nat → Option weighted_int_t

/-- The allocation `new weighted_int_t[n]`: `n` cells, none of them written. -/
def dp_table.fresh (n : Nat) : dp_table := ⟨n, fun _ => none⟩

/-- The table with cell `i` holding `c`. -/
def dp_table.upd (t : dp_table) (i : Int) (c : weighted_int_t) : dp_table :=
  ⟨t.size, fun j => if j = i.toNat then some c else t.cell j⟩

/-- What cell `i` holds, if anything. -/
def dp_table.peek (t : dp_table) (i : Int) : Option weighted_int_t := t.cell i.toNat

/-- Checked read of `dp[i]`. -/
def dp_table.read (t : dp_table) (i : Int) : Except Fault weighted_int_t :=
  if 0 ≤ i ∧ i < t.size then
    match t.peek i with
    | some c => .ok c
    | none => .error .dp_uninitialised
  else .error .dp_out_of_bounds

/-- Checked write of `dp[i]`. -/
def dp_table.write (t : dp_table) (i : Int) (c : weighted_int_t) : Except Fault dp_table :=
  if 0 ≤ i ∧ i < t.size then .ok (t.upd i c) else .error .dp_out_of_bounds

/-- Checked `v[i]` on a `std::vector<int>`. -/
def vec_get (v : List Int) (i : Int) : Except Fault Int :=
  if 0 ≤ i ∧ i < v.length then .ok (v.getD i.toNat 0) else .error .vec_out_of_bounds

/-- Checked `v[i] = x` on a `std::vector<int>`. -/
def vec_set (v : List Int) (i : Int) (x : Int) : Except Fault (List Int) :=
  if 0 ≤ i ∧ i < v.length then .ok (v.set i.toNat x) else .error .vec_out_of_bounds

/-! ## Loops -/

/-- Runs `body i` for `n` consecutive values of `i`, upwards from `i`. -/
def iter_up {σ : Type} (body : Int → σ → Except Fault σ) : Nat → Int → σ → Except Fault σ
  | 0, _, s => .ok s
  | n + 1, i, s => (body i s).bind (iter_up body n (i + 1))

/-- The loop `for (int i = lo; i < hi; ++i) body`. -/
def for_up {σ : Type} (lo hi : Int) (body : Int → σ → Except Fault σ) (s : σ) :
    Except Fault σ :=
  iter_up body (hi - lo).toNat lo s

/-- Runs `body i` for `n` consecutive values of `i`, downwards from `i`. -/
def iter_down {σ : Type} (body : Int → σ → Except Fault σ) : Nat → Int → σ → Except Fault σ
  | 0, _, s => .ok s
  | n + 1, i, s => (body i s).bind (iter_down body n (i - 1))

/-- The loop `for (int i = hi; i >= lo; --i) body`. -/
def for_down {σ : Type} (hi lo : Int) (body : Int → σ → Except Fault σ) (s : σ) :
    Except Fault σ :=
  iter_down body (hi - lo + 1).toNat hi s

/-- Exact integer addition. -/
def exact_add (a b : Int) : Int := a + b

/-- The comparator `std::less<int>`. -/
def less (a b : Int) : Bool := decide (a < b)

/-- The comparator `std::greater<int>`. -/
def greater (a b : Int) : Bool := decide (a > b)

/-- The algorithm `std::min_element(dp + first, dp + last)` with `operator<` of the cells:
the position of the first smallest cell; `last` on an empty range. -/
def min_element (dp : dp_table) (first last : Int) : Except Fault Int :=
  if last < first then .error .invalid_range
  else if first = last then .ok last
  else
    for_up (first + 1) last
      (fun i smallest =>
        (dp.read i).bind fun a =>
        (dp.read smallest).bind fun b =>
        .ok (if a.lt b then i else smallest))
      first

/-! ## Seam search -/

/-- The pointers `last_level` and `current_level` (as offsets into `dp`) with the table. -/
structure levels where
  dp : dp_table
  last_level : Int
  current_level : Int

/-- The backtrace state: the vector `energy_min_path` and the pointer `last_level`. -/
structure trace where
  path : List Int
  last_level : Int

/-- What a call leaves behind: the returned `path_result`, the DP table as the call left it,
and whether `delete [] dp` ran before the return statement read `e_min->weight`. -/
structure seam_run where
  result : path_result
  table : dp_table
  released : Bool

/-- One step of the recurrence, lines 138-159 (and 51-72 with the axes exchanged): the cell
`e_min = current_level[p]` takes the straight predecessor, then a diagonal one where it is
eligible and `cmp` prefers it, then adds the energy `e` of its own pixel. Every assignment
through the reference `e_min` is a write to the table. -/
def relax (add : Int → Int → Int) (cmp : Int → Int → Bool) (extent : Int)
    (e : Except Fault Int) (p : Int) (st : levels) : Except Fault levels :=
  (st.dp.read (st.last_level + p)).bind fun s =>
  (st.dp.write (st.current_level + p) ⟨s.weight, p⟩).bind fun dp1 =>
  (if p - 1 ≥ 1 then
      (dp1.read (st.last_level + (p - 1))).bind fun a =>
      if cmp a.weight s.weight then
        (dp1.write (st.current_level + p) ⟨a.weight, p - 1⟩).bind fun dp2 =>
        .ok (dp2, (⟨a.weight, p - 1⟩ : weighted_int_t))
      else .ok (dp1, ⟨s.weight, p⟩)
    else .ok (dp1, ⟨s.weight, p⟩)).bind fun (dp2, m) =>
  (if p + 1 < extent - 1 then
      (dp2.read (st.last_level + (p + 1))).bind fun b =>
      if cmp b.weight m.weight then
        (dp2.write (st.current_level + p) ⟨b.weight, p + 1⟩).bind fun dp3 =>
        .ok (dp3, (⟨b.weight, p + 1⟩ : weighted_int_t))
      else .ok (dp2, m)
    else .ok (dp2, m)).bind fun (dp3, m) =>
  e.bind fun e =>
  (dp3.write (st.current_level + p) ⟨add m.weight e, m.value⟩).bind fun dp4 =>
  .ok { st with dp := dp4 }

/-- The body of `find_vert_seam` once `dp` points to the table, from "first level: init"
to the return statement; `owned` tells that the call allocated the table itself and
deletes it before the return statement reads `e_min->weight`. -/
def find_vert_seam_on (add : Int → Int → Int) (energy_image : Mat)
    (dp : dp_table) (owned : Bool) (cmp : Int → Int → Bool) : Except Fault seam_run :=
  let rows : Int := energy_image.rows
  let cols : Int := energy_image.cols
  -- first level: init
  (for_up 1 (cols - 1)
    (fun x dp => (energy_image.at 0 x).bind fun e => dp.write x ⟨e, -1⟩) dp).bind fun dp =>
  -- dp
  (for_up 1 rows
    (fun y st =>
      (for_up 1 (cols - 1)
        (fun x st => relax add cmp cols (energy_image.at y x) x st) st).bind fun st =>
      .ok { st with last_level := st.last_level + cols,
                    current_level := st.current_level + cols })
    ⟨dp, 0, cols⟩).bind fun st =>
  (for_up 1 (cols - 1)
    (fun x dp =>
      (dp.read (st.last_level + x)).bind fun s =>
      dp.write (st.current_level + x) ⟨s.weight, x⟩) st.dp).bind fun dp =>
  -- last level: find minimum.
  (min_element dp (st.current_level + 1) (st.current_level + (cols - 1))).bind fun e_min =>
  -- backtrace
  (dp.read e_min).bind fun m =>
  (vec_set (List.replicate energy_image.rows 0) (rows - 1) m.value).bind fun path =>
  (for_down (rows - 2) 0
    (fun y (tr : trace) =>
      (vec_get tr.path (y + 1)).bind fun p =>
      (dp.read (tr.last_level + p)).bind fun c =>
      (vec_set tr.path y c.value).bind fun path =>
      .ok (⟨path, tr.last_level - cols⟩ : trace))
    (⟨path, st.last_level⟩ : trace)).bind fun tr =>
  -- if (!buffer) delete [] dp; the return statement then reads e_min->weight
  (dp.read e_min).bind fun m =>
  .ok ⟨⟨tr.path, m.weight⟩, dp, owned⟩

/-- The function `find_vert_seam`, lines 110-194, with what the call leaves behind: without a
buffer the table is allocated with `new`, otherwise it is the caller's buffer. -/
def find_vert_seam_run (add : Int → Int → Int) (energy_image : Mat)
    (buffer : Option dp_table) (cmp : Int → Int → Bool) : Except Fault seam_run :=
  match buffer with
  | none =>
    find_vert_seam_on add energy_image
      (dp_table.fresh ((energy_image.rows + 1) * energy_image.cols)) true cmp
  | some b => find_vert_seam_on add energy_image b false cmp

/-- The body of `find_hori_seam` once `dp` points to the table, from "first level: init"
to the return statement; `owned` tells that the call allocated the table itself and
deletes it before the return statement reads `e_min->weight`. -/
def find_hori_seam_on (add : Int → Int → Int) (energy_image : Mat)
    (dp : dp_table) (owned : Bool) (cmp : Int → Int → Bool) : Except Fault seam_run :=
  let rows : Int := energy_image.rows
  let cols : Int := energy_image.cols
  -- first level: init
  (for_up 1 (rows - 1)
    (fun y dp => (energy_image.at y 0).bind fun e => dp.write y ⟨e, -1⟩) dp).bind fun dp =>
  -- dp
  (for_up 1 cols
    (fun x st =>
      (for_up 1 (rows - 1)
        (fun y st => relax add cmp rows (energy_image.at y x) y st) st).bind fun st =>
      .ok { st with last_level := st.last_level + rows,
                    current_level := st.current_level + rows })
    ⟨dp, 0, rows⟩).bind fun st =>
  (for_up 1 (rows - 1)
    (fun y dp =>
      (dp.read (st.last_level + y)).bind fun s =>
      dp.write (st.current_level + y) ⟨s.weight, y⟩) st.dp).bind fun dp =>
  -- last level: find minimum.
  (min_element dp (st.current_level + 1) (st.current_level + (rows - 1))).bind fun e_min =>
  -- backtrace
  (dp.read e_min).bind fun m =>
  (vec_set (List.replicate energy_image.cols 0) (cols - 1) m.value).bind fun path =>
  (for_down (cols - 2) 0
    (fun x (tr : trace) =>
      (vec_get tr.path (x + 1)).bind fun p =>
      (dp.read (tr.last_level + p)).bind fun c =>
      (vec_set tr.path x c.value).bind fun path =>
      .ok (⟨path, tr.last_level - rows⟩ : trace))
    (⟨path, st.last_level⟩ : trace)).bind fun tr =>
  -- if (!buffer) delete [] dp; the return statement then reads e_min->weight
  (dp.read e_min).bind fun m =>
  .ok ⟨⟨tr.path, m.weight⟩, dp, owned⟩

/-- The function `find_hori_seam`, lines 23-107, with what the call leaves behind: without a
buffer the table is allocated with `new`, otherwise it is the caller's buffer. -/
def find_hori_seam_run (add : Int → Int → Int) (energy_image : Mat)
    (buffer : Option dp_table) (cmp : Int → Int → Bool) : Except Fault seam_run :=
  match buffer with
  | none =>
    find_hori_seam_on add energy_image
      (dp_table.fresh ((energy_image.cols + 1) * energy_image.rows)) true cmp
  | some b => find_hori_seam_on add energy_image b false cmp

/-- The value `find_vert_seam(energy_image, buffer, cmp)` returns. -/
def find_vert_seam (add : Int → Int → Int) (energy_image : Mat)
    (buffer : Option dp_table) (cmp : Int → Int → Bool) : Except Fault path_result :=
  (find_vert_seam_run add energy_image buffer cmp).map seam_run.result

/-- The value `find_hori_seam(energy_image, buffer, cmp)` returns. -/
def find_hori_seam (add : Int → Int → Int) (energy_image : Mat)
    (buffer : Option dp_table) (cmp : Int → Int → Bool) : Except Fault path_result :=
  (find_hori_seam_run add energy_image buffer cmp).map seam_run.result

/-! ## Seam application

`CHANNELS` is the template parameter of that name. `TCHANNEL` ranges over the integer
pixel types narrower than `int` (8 and 16 bits, signed or not): a pixel value is an `Int`,
`static_cast<int>` of a pixel is exact, the sum of two pixels does not overflow `int`, and
the average of two pixels is again a pixel, so `static_cast<TCHANNEL>` of it is exact.
The division `/ 2` of `int` truncates toward zero: `Int.tdiv`.
The loops thread the matrix they write as `res`; its extent is that of `result`, which no
write changes. -/

/-- The function `remove_path_hori`, lines 196-217. -/
def remove_path_hori (CHANNELS : Nat) (image : Mat) (path : List Int) : Except Fault Mat :=
  (Mat.create (image.rows - 1) image.cols image).bind fun result =>
  for_up 0 result.rows
    (fun y res =>
      for_up 0 result.cols
        (fun x res =>
          (vec_get path x).bind fun px =>
          let img_y : Int := if y ≥ px then y + 1 else y
          for_up 0 CHANNELS
            (fun c res =>
              (image.at img_y (CHANNELS * x + c)).bind fun v =>
              res.put y (CHANNELS * x + c) v)
            res)
        res)
    result

/-- The function `remove_path_vert`, lines 219-240. -/
def remove_path_vert (CHANNELS : Nat) (image : Mat) (path : List Int) : Except Fault Mat :=
  (Mat.create image.rows (image.cols - 1) image).bind fun result =>
  for_up 0 result.rows
    (fun y res =>
      for_up 0 result.cols
        (fun x res =>
          (vec_get path y).bind fun py =>
          let img_x : Int := if x ≥ py then x + 1 else x
          for_up 0 CHANNELS
            (fun c res =>
              (image.at y (CHANNELS * img_x + c)).bind fun v =>
              res.put y (CHANNELS * x + c) v)
            res)
        res)
    result

/-- The function `insert_path_hori`, lines 242-277. -/
def insert_path_hori (CHANNELS : Nat) (image : Mat) (path : List Int) : Except Fault Mat :=
  (Mat.create (image.rows + 1) image.cols image).bind fun result =>
  for_up 0 result.rows
    (fun y res =>
      for_up 0 result.cols
        (fun x res =>
          (vec_get path x).bind fun px =>
          if y = px ∧ y < image.rows then
            for_up 0 CHANNELS
              (fun c res =>
                (image.at (y - 1) (CHANNELS * x + c)).bind fun a =>
                (image.at y (CHANNELS * x + c)).bind fun b =>
                res.put y (CHANNELS * x + c) (Int.tdiv (a + b) 2))
              res
          else
            let img_y : Int := if y > px then y - 1 else y
            for_up 0 CHANNELS
              (fun c res =>
                (image.at img_y (CHANNELS * x + c)).bind fun v =>
                res.put y (CHANNELS * x + c) v)
              res)
        res)
    result

/-- The function `insert_path_vert`, lines 279-314. -/
def insert_path_vert (CHANNELS : Nat) (image : Mat) (path : List Int) : Except Fault Mat :=
  (Mat.create image.rows (image.cols + 1) image).bind fun result =>
  for_up 0 result.rows
    (fun y res =>
      for_up 0 result.cols
        (fun x res =>
          (vec_get path y).bind fun py =>
          if x = py ∧ x < image.cols then
            for_up 0 CHANNELS
              (fun c res =>
                (image.at y (CHANNELS * (x - 1) + c)).bind fun a =>
                (image.at y (CHANNELS * x + c)).bind fun b =>
                res.put y (CHANNELS * x + c) (Int.tdiv (a + b) 2))
              res
          else
            let img_x : Int := if x > py then x - 1 else x
            for_up 0 CHANNELS
              (fun c res =>
                (image.at y (CHANNELS * img_x + c)).bind fun v =>
                res.put y (CHANNELS * x + c) v)
              res)
        res)
    result

/-- The function `set_path_hori`, lines 316-327; the image after the call. -/
def set_path_hori (CHANNELS : Nat) (image : Mat) (path : List Int) (color : List Int) :
    Except Fault Mat :=
  for_up 0 image.cols
    (fun x image =>
      for_up 0 CHANNELS
        (fun c image =>
          (vec_get path x).bind fun px =>
          (vec_get color c).bind fun v =>
          image.put px (CHANNELS * x + c) v)
        image)
    image

/-- The function `set_path_vert`, lines 329-340; the image after the call. -/
def set_path_vert (CHANNELS : Nat) (image : Mat) (path : List Int) (color : List Int) :
    Except Fault Mat :=
  for_up 0 image.rows
    (fun y image =>
      for_up 0 CHANNELS
        (fun c image =>
          (vec_get path y).bind fun py =>
          (vec_get color c).bind fun v =>
          image.put y (CHANNELS * py + c) v)
        image)
    image

/-! ## The recurrence as functions

The search is compared below with the recurrence written as plain functions of the energy:
`level_cell k p` is the cell the search stores for coordinate `p` of level `k`. -/

/-- The predecessor the recurrence selects for coordinate `p`, with its weight, given the
weights `prev` of the previous level. -/
def pick (cmp : Int → Int → Bool) (extent : Int) (prev : Int → Int) (p : Int) :
    weighted_int_t :=
  let m0 : weighted_int_t := ⟨prev p, p⟩
  let m1 : weighted_int_t :=
    if p - 1 ≥ 1 ∧ cmp (prev (p - 1)) m0.weight = true then ⟨prev (p - 1), p - 1⟩ else m0
  if p + 1 < extent - 1 ∧ cmp (prev (p + 1)) m1.weight = true then ⟨prev (p + 1), p + 1⟩
  else m1

/-- The cell of coordinate `p` at level `k`, for the energy `en level coordinate`. -/
def level_cell (add : Int → Int → Int) (cmp : Int → Int → Bool) (extent : Int)
    (en : Nat → Int → Int) : Nat → Int → weighted_int_t
  | 0, p => ⟨en 0 p, -1⟩
  | k + 1, p =>
    let m := pick cmp extent (fun q => (level_cell add cmp extent en k q).weight) p
    ⟨add m.weight (en (k + 1) p), m.value⟩

/-- The energy a vertical seam collects at row `y`, column `x`. -/
def vert_energy (E : Mat) (y : Nat) (x : Int) : Int := E.data y x.toNat

/-- The energy a horizontal seam collects at column `x`, row `y`. -/
def hori_energy (E : Mat) (x : Nat) (y : Int) : Int := E.data y.toNat x

/-- The caller's scratch buffer, when there is one, has room for `n` cells. -/
def fits (n : Nat) : Option dp_table → Prop
  | none => True
  | some b => n ≤ b.size

/-- A valid seam over `levels` levels of `extent` coordinates: one coordinate per level,
none on the two borders, adjacent ones at most 1 apart. -/
def valid_seam (levels extent : Nat) (s : List Int) : Prop :=
  s.length = levels ∧ (∀ i, i < s.length → 1 ≤ s.getD i 0 ∧ s.getD i 0 ≤ (extent : Int) - 2) ∧
    ∀ i, i < s.length - 1 → |s.getD (i + 1) 0 - s.getD i 0| ≤ 1

instance (levels extent : Nat) (s : List Int) : Decidable (valid_seam levels extent s) := by
  unfold valid_seam
  exact inferInstance

/-- The sum of `en i s[i]` over the entries of `s`, from level `i` on. -/
def seam_sum (en : Nat → Int → Int) : Nat → List Int → Int
  | _, [] => 0
  | i, p :: s => en i p + seam_sum en (i + 1) s

/-- The total energy of the vertical seam `s`: the sum of `energy(y, s[y])`. -/
def vert_seam_energy (E : Mat) (s : List Int) : Int := seam_sum (vert_energy E) 0 s

/-- The total energy of the horizontal seam `s`: the sum of `energy(s[x], x)`. -/
def hori_seam_energy (E : Mat) (s : List Int) : Int := seam_sum (hori_energy E) 0 s

/-- The run `r` is the one the recurrence determines, over `levels` levels of `extent`
coordinates with energy `en`: its total is the least weight of the last level, found at
the first such coordinate `pl`; its path has one entry per level, ends at `pl`, stays off
the two borders, and each entry is the predecessor recorded for the entry after it. -/
def follows_recurrence (add : Int → Int → Int) (cmp : Int → Int → Bool) (levels extent : Nat)
    (en : Nat → Int → Int) (owned : Bool) (r : seam_run) (pl : Int) : Prop :=
  r.released = owned ∧ r.result.path.length = levels ∧ 1 ≤ pl ∧ pl < (extent : Int) - 1 ∧
  (∀ p, 1 ≤ p → p < (extent : Int) - 1 →
    (level_cell add cmp extent en (levels - 1) pl).weight ≤
      (level_cell add cmp extent en (levels - 1) p).weight) ∧
  (∀ p, 1 ≤ p → p < pl →
    (level_cell add cmp extent en (levels - 1) pl).weight <
      (level_cell add cmp extent en (levels - 1) p).weight) ∧
  r.result.total_energy = (level_cell add cmp extent en (levels - 1) pl).weight ∧
  r.result.path.getD (levels - 1) 0 = pl ∧
  (∀ l : Nat, l < levels →
    1 ≤ r.result.path.getD l 0 ∧ r.result.path.getD l 0 < (extent : Int) - 1) ∧
  ∀ l : Nat, l + 1 < levels →
    r.result.path.getD l 0 =
      (level_cell add cmp extent en (l + 1) (r.result.path.getD (l + 1) 0)).value

/-- The number `t` is the greatest total energy of a valid seam. -/
def is_greatest_energy (levels extent : Nat) (energy : List Int → Int) (t : Int) : Prop :=
  (∃ s, valid_seam levels extent s ∧ energy s = t) ∧
    ∀ s, valid_seam levels extent s → energy s ≤ t

/-! ## Concrete inputs -/

/-- The 5x5 energy map of the scenario: 0 at (1,1), (2,2), (3,3) and 100 elsewhere. -/
def scenario_map : Mat :=
  Mat.ofRows 5 5
    [[100, 100, 100, 100, 100],
     [100, 0, 100, 100, 100],
     [100, 100, 0, 100, 100],
     [100, 100, 100, 0, 100],
     [100, 100, 100, 100, 100]]

/-- A 4x4 image of 3 channels; element `j` of row `y` is `100 * y + j`. -/
def color_image : Mat :=
  { rows := 4, cols := 4, chans := 3, chans_pos := by decide,
    data := fun y j => 100 * (y : Int) + (j : Int) }

/-- An energy map of 2 rows and 1 column. -/
def two_row_map : Mat := Mat.ofRows 2 1 [[0], [1]]

/-- An energy map of 1 row and 2 columns. -/
def two_col_map : Mat := Mat.ofRows 1 2 [[0, 1]]

/-- A scratch buffer of 6 cells that all hold the stale cell `{7, 3}`. -/
def stale_buffer : dp_table := ⟨6, fun _ => some ⟨7, 3⟩⟩

/-- An energy map of 1 row and 4 columns; its two eligible cells hold 1 and 5. -/
def one_row_map : Mat := Mat.ofRows 1 4 [[0, 1, 5, 0]]

/-- An energy map of 4 rows and 1 column; its two eligible cells hold 1 and 5. -/
def one_col_map : Mat := Mat.ofRows 4 1 [[0], [1], [5], [0]]

/-- An energy map of 3 rows and 1 column. -/
def three_row_map : Mat := Mat.ofRows 3 1 [[1], [2], [3]]

/-- An energy map of 1 row and 3 columns. -/
def three_col_map : Mat := Mat.ofRows 1 3 [[1, 2, 3]]

/-- A scratch buffer of 4 cells, none of them written. -/
def four_cell_buffer : dp_table := dp_table.fresh 4

/-- A scratch buffer of 30 cells that all hold the stale cell `{7, 3}`. -/
def stale_buffer_30 : dp_table := ⟨30, fun _ => some ⟨7, 3⟩⟩

@[simp] theorem bind_ok {α β : Type} (a : α) (f : α → Except Fault β) :
    (Except.ok a : Except Fault α).bind f = f a := rfl

@[simp] theorem bind_error {α β : Type} (e : Fault) (f : α → Except Fault β) :
    (Except.error e : Except Fault α).bind f = .error e := rfl

theorem iter_up_inv {σ : Type} (body : Int → σ → Except Fault σ) (Inv : Int → σ → Prop) :
    ∀ (n : Nat) (i : Int) (s : σ), Inv i s →
      (∀ j t, i ≤ j → j < i + n → Inv j t → ∃ t', body j t = .ok t' ∧ Inv (j + 1) t') →
      ∃ s', iter_up body n i s = .ok s' ∧ Inv (i + n) s' := by
  intro n
  induction n with
  | zero => intro i s h _; exact ⟨s, rfl, by simpa using h⟩
  | succ n ih =>
    intro i s h step
    obtain ⟨t, ht, hinv⟩ := step i s (le_refl _) (by push_cast; omega) h
    obtain ⟨s', hs', hinv'⟩ := ih (i + 1) t hinv (fun j u h1 h2 hu =>
      step j u (by omega) (by push_cast; omega) hu)
    refine ⟨s', ?_, ?_⟩
    · simp [iter_up, ht, hs']
    · have : i + ((n + 1 : Nat) : Int) = i + 1 + n := by push_cast; ring
      rw [this]; exact hinv'

/-- Invariant rule for `for (i = lo; i < hi; ++i)`: `Inv j` holds before the iteration at
`j`, and `Inv hi` when the loop is left. -/
theorem for_up_inv {σ : Type} (body : Int → σ → Except Fault σ) (Inv : Int → σ → Prop)
    (lo hi : Int) (s : σ) (hle : lo ≤ hi) (h0 : Inv lo s)
    (step : ∀ j t, lo ≤ j → j < hi → Inv j t → ∃ t', body j t = .ok t' ∧ Inv (j + 1) t') :
    ∃ s', for_up lo hi body s = .ok s' ∧ Inv hi s' := by
  obtain ⟨s', h1, h2⟩ := iter_up_inv body Inv (hi - lo).toNat lo s h0
    (fun j t a b c => step j t a (by omega) c)
  refine ⟨s', h1, ?_⟩
  have : lo + ((hi - lo).toNat : Int) = hi := by omega
  rwa [this] at h2

theorem for_up_empty {σ : Type} (body : Int → σ → Except Fault σ)
    (lo hi : Int) (s : σ) (hle : hi ≤ lo) : for_up lo hi body s = .ok s := by
  have : (hi - lo).toNat = 0 := by omega
  simp [for_up, this, iter_up]

theorem iter_up_congr {σ : Type} (f g : Int → σ → Except Fault σ) :
    ∀ (n : Nat) (i : Int) (s : σ), (∀ j t, i ≤ j → j < i + n → f j t = g j t) →
      iter_up f n i s = iter_up g n i s := by
  intro n
  induction n with
  | zero => intro i s _; rfl
  | succ n ih =>
    intro i s h
    have e1 : f i s = g i s := h i s (le_refl _) (by push_cast; omega)
    have e2 : iter_up f n (i + 1) = iter_up g n (i + 1) :=
      funext fun t => ih (i + 1) t (fun j u h1 h2 => h j u (by omega) (by push_cast; omega))
    simp only [iter_up, e1, e2]

/-- Two loops over the same range whose bodies agree on that range are the same. -/
theorem for_up_congr {σ : Type} (f g : Int → σ → Except Fault σ) (lo hi : Int) (s : σ)
    (h : ∀ j t, lo ≤ j → j < hi → f j t = g j t) : for_up lo hi f s = for_up lo hi g s :=
  iter_up_congr f g _ lo s (fun j t a b => h j t a (by omega))

theorem iter_down_inv {σ : Type} (body : Int → σ → Except Fault σ) (Inv : Int → σ → Prop) :
    ∀ (n : Nat) (i : Int) (s : σ), Inv i s →
      (∀ j t, j ≤ i → i - n < j → Inv j t → ∃ t', body j t = .ok t' ∧ Inv (j - 1) t') →
      ∃ s', iter_down body n i s = .ok s' ∧ Inv (i - n) s' := by
  intro n
  induction n with
  | zero => intro i s h _; exact ⟨s, rfl, by simpa using h⟩
  | succ n ih =>
    intro i s h step
    obtain ⟨t, ht, hinv⟩ := step i s (le_refl _) (by push_cast; omega) h
    obtain ⟨s', hs', hinv'⟩ := ih (i - 1) t hinv (fun j u h1 h2 hu =>
      step j u (by omega) (by push_cast; omega) hu)
    refine ⟨s', ?_, ?_⟩
    · simp [iter_down, ht, hs']
    · have : i - ((n + 1 : Nat) : Int) = i - 1 - n := by push_cast; ring
      rw [this]; exact hinv'

/-- Invariant rule for `for (i = hi; i >= lo; --i)`: `Inv j` holds before the iteration at
`j`, and `Inv (lo - 1)` when the loop is left. -/
theorem for_down_inv {σ : Type} (body : Int → σ → Except Fault σ) (Inv : Int → σ → Prop)
    (hi lo : Int) (s : σ) (hle : lo ≤ hi + 1) (h0 : Inv hi s)
    (step : ∀ j t, lo ≤ j → j ≤ hi → Inv j t → ∃ t', body j t = .ok t' ∧ Inv (j - 1) t') :
    ∃ s', for_down hi lo body s = .ok s' ∧ Inv (lo - 1) s' := by
  obtain ⟨s', h1, h2⟩ := iter_down_inv body Inv (hi - lo + 1).toNat hi s h0
    (fun j t a b c => step j t (by omega) a c)
  refine ⟨s', h1, ?_⟩
  have : hi - ((hi - lo + 1).toNat : Int) = lo - 1 := by omega
  rwa [this] at h2

/-! ## The DP table -/

@[simp] theorem size_upd (t : dp_table) (i : Int) (c : weighted_int_t) :
    (t.upd i c).size = t.size := rfl

@[simp] theorem peek_upd_same (t : dp_table) (i : Int) (c : weighted_int_t) :
    (t.upd i c).peek i = some c := by simp [dp_table.upd, dp_table.peek]

theorem peek_upd_ne (t : dp_table) (i j : Int) (c : weighted_int_t)
    (hi : 0 ≤ i) (hj : 0 ≤ j) (h : j ≠ i) : (t.upd i c).peek j = t.peek j := by
  have : j.toNat ≠ i.toNat := by omega
  simp [dp_table.upd, dp_table.peek, this]

@[simp] theorem upd_upd (t : dp_table) (i : Int) (c d : weighted_int_t) :
    (t.upd i c).upd i d = t.upd i d := by
  simp only [dp_table.upd]
  congr 1
  funext j
  by_cases h : j = i.toNat <;> simp [h]

theorem read_ok (t : dp_table) (i : Int) (c : weighted_int_t)
    (h0 : 0 ≤ i) (h1 : i < t.size) (h : t.peek i = some c) : t.read i = .ok c := by
  simp [dp_table.read, h0, h1, h]

theorem write_ok (t : dp_table) (i : Int) (c : weighted_int_t)
    (h0 : 0 ≤ i) (h1 : i < t.size) : t.write i c = .ok (t.upd i c) := by
  simp [dp_table.write, h0, h1]

/-- One step of the recurrence stores the cell the functional recurrence gives, when the
previous level holds the cells `L` and lies below the current one. -/
theorem relax_ok (add : Int → Int → Int) (cmp : Int → Int → Bool) (ext ev p : Int)
    (st : levels) (L : Int → weighted_int_t)
    (h1 : 1 ≤ p) (h2 : p < ext - 1) (hl : 0 ≤ st.last_level)
    (hc : st.last_level + ext ≤ st.current_level)
    (hs : st.current_level + p < st.dp.size)
    (hL : ∀ q, 1 ≤ q → q < ext - 1 → st.dp.peek (st.last_level + q) = some (L q)) :
    relax add cmp ext (.ok ev) p st =
      .ok (levels.mk
        (st.dp.upd (st.current_level + p)
          ⟨add (pick cmp ext (fun q => (L q).weight) p).weight ev,
           (pick cmp ext (fun q => (L q).weight) p).value⟩)
        st.last_level st.current_level) := by
  have rd : ∀ (c : weighted_int_t) (q : Int), 1 ≤ q → q < ext - 1 →
      ((st.dp.upd (st.current_level + p) c).read (st.last_level + q)) = .ok (L q) := by
    intro c q hq1 hq2
    apply read_ok _ _ _ (by omega) (by simp; omega)
    rw [peek_upd_ne _ _ _ _ (by omega) (by omega) (by omega)]
    exact hL q hq1 hq2
  have r0 : st.dp.read (st.last_level + p) = .ok (L p) :=
    read_ok _ _ _ (by omega) (by omega) (hL p h1 h2)
  have wr : ∀ (t : dp_table) (c : weighted_int_t), t.size = st.dp.size →
      t.write (st.current_level + p) c = .ok (t.upd (st.current_level + p) c) :=
    fun t c ht => write_ok _ _ _ (by omega) (by omega)
  unfold relax pick
  simp only [r0, bind_ok, wr st.dp _ rfl]
  by_cases ha : p - 1 ≥ 1
  · by_cases hb : p + 1 < ext - 1
    · simp only [ha, hb, rd _ (p - 1) ha (by omega), rd _ (p + 1) (by omega) hb, if_true,
        bind_ok, true_and]
      by_cases c1 : cmp (L (p - 1)).weight (L p).weight = true
      · simp only [c1, if_true, wr _ _ (size_upd _ _ _), bind_ok, upd_upd, rd _ (p + 1) (by omega) hb]
        by_cases c2 : cmp (L (p + 1)).weight (L (p - 1)).weight = true
        · simp [c2, wr _ _ (size_upd _ _ _)]
        · simp [c2, wr _ _ (size_upd _ _ _)]
      · simp only [c1, if_false, bind_ok]
        by_cases c2 : cmp (L (p + 1)).weight (L p).weight = true
        · simp [c2, wr _ _ (size_upd _ _ _), rd _ (p + 1) (by omega) hb]
        · simp [c2, wr _ _ (size_upd _ _ _), rd _ (p + 1) (by omega) hb]
    · simp only [ha, hb, rd _ (p - 1) ha (by omega), if_true, if_false, bind_ok, true_and,
        false_and]
      by_cases c1 : cmp (L (p - 1)).weight (L p).weight = true
      · simp [c1, wr _ _ (size_upd _ _ _)]
      · simp [c1, wr _ _ (size_upd _ _ _)]
  · by_cases hb : p + 1 < ext - 1
    · simp only [ha, hb, rd _ (p + 1) (by omega) hb, if_true, if_false, bind_ok, true_and,
        false_and]
      by_cases c2 : cmp (L (p + 1)).weight (L p).weight = true
      · simp [c2, wr _ _ (size_upd _ _ _)]
      · simp [c2, wr _ _ (size_upd _ _ _)]
    · simp [ha, hb, wr _ _ (size_upd _ _ _)]

/-! ## Addresses of the table -/

theorem addr_lt_level (k j : Nat) (c p q : Int) (hkj : k < j) (hp : p < c) (hq : 0 ≤ q)
    (hc : 0 ≤ c) : (k : Int) * c + p < (j : Int) * c + q := by
  have h : ((k : Int) + 1) * c ≤ (j : Int) * c :=
    Int.mul_le_mul_of_nonneg_right (by omega) hc
  have e : ((k : Int) + 1) * c = (k : Int) * c + c := by ring
  omega

theorem addr_nonneg (k : Nat) (c p : Int) (hp : 0 ≤ p) (hc : 0 ≤ c) :
    0 ≤ (k : Int) * c + p := by
  have : 0 ≤ (k : Int) * c := Int.mul_nonneg (by omega) hc
  omega

theorem addr_lt_size (k n : Nat) (c p : Int) (hk : k ≤ n) (hp : p < c) (hc : 0 ≤ c) :
    (k : Int) * c + p < ((n : Int) + 1) * c := by
  have h : (k : Int) * c ≤ (n : Int) * c := Int.mul_le_mul_of_nonneg_right (by omega) hc
  have e : ((n : Int) + 1) * c = (n : Int) * c + c := by ring
  omega

theorem at_ok (m : Mat) (y j : Int) (hy0 : 0 ≤ y) (hy : y < m.rows) (hj0 : 0 ≤ j)
    (hj : j < m.cols) : m.at y j = .ok (m.data y.toNat j.toNat) := by
  have h : (m.cols : Int) ≤ ((m.cols * m.chans : Nat) : Int) := by
    have := Nat.le_mul_of_pos_right m.cols m.chans_pos
    exact_mod_cast this
  have h2 : j < (m.cols : Int) * (m.chans : Int) := by push_cast at h; omega
  simp [Mat.at, hy0, hy, hj0, h2]

/-! ## The search fills the table with the recurrence -/

/-- The first level holds the energies of row 0. -/
theorem vert_init_ok (E : Mat) (dp : dp_table) (h1 : 1 ≤ E.rows) (h2 : 2 ≤ E.cols)
    (hs : (E.cols : Int) ≤ dp.size) :
    ∃ dp1, for_up 1 ((E.cols : Int) - 1)
        (fun x dp => (E.at 0 x).bind fun e => dp.write x ⟨e, -1⟩) dp = .ok dp1 ∧
      dp1.size = dp.size ∧
      ∀ p, 1 ≤ p → p < (E.cols : Int) - 1 → dp1.peek p = some ⟨vert_energy E 0 p, -1⟩ := by
  apply for_up_inv _ (fun x (t : dp_table) => t.size = dp.size ∧
      ∀ p, 1 ≤ p → p < x → t.peek p = some ⟨vert_energy E 0 p, -1⟩) 1 _ dp (by omega)
  · exact ⟨rfl, fun p a b => by omega⟩
  · intro x t hx1 hx2 ⟨hsz, hcell⟩
    refine ⟨t.upd x ⟨vert_energy E 0 x, -1⟩, ?_, by simpa using hsz, ?_⟩
    · rw [at_ok E 0 x (le_refl _) (by omega) (by omega) (by omega)]
      simp only [bind_ok]
      exact write_ok _ _ _ (by omega) (by omega)
    · intro p hp1 hp2
      by_cases hpx : p = x
      · subst hpx; simp
      · rw [peek_upd_ne _ _ _ _ (by omega) (by omega) hpx]
        exact hcell p hp1 (by omega)

/-- The cells of the recurrence for a vertical seam. -/
theorem level_cell_succ (add : Int → Int → Int) (cmp : Int → Int → Bool) (ext : Int)
    (en : Nat → Int → Int) (k : Nat) (p : Int) :
    level_cell add cmp ext en (k + 1) p =
      ⟨add (pick cmp ext (fun q => (level_cell add cmp ext en k q).weight) p).weight
          (en (k + 1) p),
        (pick cmp ext (fun q => (level_cell add cmp ext en k q).weight) p).value⟩ := rfl

/-- After the main loop every level of the table holds the cells of the recurrence. -/
theorem vert_fill_ok (add : Int → Int → Int) (cmp : Int → Int → Bool) (E : Mat)
    (dp : dp_table) (h1 : 1 ≤ E.rows) (h3 : 3 ≤ E.cols)
    (hs : (E.rows + 1) * E.cols ≤ dp.size)
    (h0 : ∀ p, 1 ≤ p → p < (E.cols : Int) - 1 →
      dp.peek p = some (level_cell add cmp E.cols (vert_energy E) 0 p)) :
    ∃ st, for_up 1 (E.rows : Int)
        (fun y st =>
          (for_up 1 ((E.cols : Int) - 1)
            (fun x st => relax add cmp E.cols (E.at y x) x st) st).bind fun st =>
          .ok { st with last_level := st.last_level + (E.cols : Int),
                        current_level := st.current_level + (E.cols : Int) })
        ⟨dp, 0, E.cols⟩ = .ok st ∧
      st.dp.size = dp.size ∧ st.last_level = ((E.rows : Int) - 1) * E.cols ∧
      st.current_level = (E.rows : Int) * E.cols ∧
      ∀ k : Nat, (k : Int) < E.rows → ∀ p, 1 ≤ p → p < (E.cols : Int) - 1 →
        st.dp.peek ((k : Int) * E.cols + p) =
          some (level_cell add cmp E.cols (vert_energy E) k p) := by
  have hsz : ((E.rows : Int) + 1) * E.cols ≤ dp.size := by exact_mod_cast hs
  apply for_up_inv _ (fun y (st : levels) => st.dp.size = dp.size ∧
      st.last_level = (y - 1) * E.cols ∧ st.current_level = y * E.cols ∧
      ∀ k : Nat, (k : Int) < y → ∀ p, 1 ≤ p → p < (E.cols : Int) - 1 →
        st.dp.peek ((k : Int) * E.cols + p) =
          some (level_cell add cmp E.cols (vert_energy E) k p)) 1 _ _ (by omega)
  · refine ⟨rfl, by simp, by simp, ?_⟩
    intro k hk p hp1 hp2
    have : k = 0 := by omega
    subst this
    simpa using h0 p hp1 hp2
  · intro y st hy1 hy2 ⟨hsize, hlast, hcur, hcells⟩
    obtain ⟨j, rfl⟩ : ∃ j : Nat, y = (j : Int) + 1 := ⟨(y - 1).toNat, by omega⟩
    have hjr : j + 1 < E.rows := by omega
    have hlast' : st.last_level = (j : Int) * E.cols := by rw [hlast]; ring
    have hcur' : st.current_level = ((j + 1 : Nat) : Int) * E.cols := by
      rw [hcur]; push_cast; ring
    obtain ⟨st1, hrun, hsize1, hlast1, hcur1, hold, hnew⟩ :
        ∃ st1, for_up 1 ((E.cols : Int) - 1)
            (fun x st => relax add cmp E.cols (E.at ((j : Int) + 1) x) x st) st = .ok st1 ∧
          st1.dp.size = dp.size ∧ st1.last_level = st.last_level ∧
          st1.current_level = st.current_level ∧
          (∀ k : Nat, k < j + 1 → ∀ p, 1 ≤ p → p < (E.cols : Int) - 1 →
            st1.dp.peek ((k : Int) * E.cols + p) =
              some (level_cell add cmp E.cols (vert_energy E) k p)) ∧
          ∀ p, 1 ≤ p → p < (E.cols : Int) - 1 →
            st1.dp.peek (((j + 1 : Nat) : Int) * E.cols + p) =
              some (level_cell add cmp E.cols (vert_energy E) (j + 1) p) := by
      apply for_up_inv _ (fun x (s : levels) => s.dp.size = dp.size ∧
          s.last_level = st.last_level ∧ s.current_level = st.current_level ∧
          (∀ k : Nat, k < j + 1 → ∀ p, 1 ≤ p → p < (E.cols : Int) - 1 →
            s.dp.peek ((k : Int) * E.cols + p) =
              some (level_cell add cmp E.cols (vert_energy E) k p)) ∧
          ∀ p, 1 ≤ p → p < x →
            s.dp.peek (((j + 1 : Nat) : Int) * E.cols + p) =
              some (level_cell add cmp E.cols (vert_energy E) (j + 1) p)) 1 _ st (by omega)
      · exact ⟨hsize, rfl, rfl, fun k hk p a b => hcells k (by omega) p a b,
          fun p a b => by omega⟩
      · intro x s hx1 hx2 ⟨hssz, hsl, hsc, hsold, hsnew⟩
        have hcurlt := addr_lt_size (j + 1) E.rows (E.cols : Int) x (by omega) (by omega)
          (by omega)
        have hcurlt' : ((j + 1 : Nat) : Int) * (E.cols : Int) + x < dp.size := by omega
        have hlev : s.current_level = s.last_level + (E.cols : Int) := by
          rw [hsc, hsl, hcur', hlast']; push_cast; ring
        have hnn := addr_nonneg j (E.cols : Int) 0 (le_refl _) (by omega)
        have hstep := relax_ok add cmp E.cols (vert_energy E (j + 1) x) x s
          (level_cell add cmp E.cols (vert_energy E) j) hx1 hx2 (by omega) (by omega)
          (by omega) (fun q hq1 hq2 => by
            rw [hsl, hlast']; exact hsold j (by omega) q hq1 hq2)
        have hat : E.at ((j : Int) + 1) x = .ok (vert_energy E (j + 1) x) := by
          rw [at_ok E _ x (by omega) (by omega) (by omega) (by omega)]
          have : ((j : Int) + 1).toNat = j + 1 := by omega
          simp [vert_energy, this]
        rw [hat, hstep]
        refine ⟨_, rfl, ?_, ?_, ?_, ?_, ?_⟩
        · simpa using hssz
        · exact hsl
        · exact hsc
        · intro k hk p hp1 hp2
          have := addr_lt_level k (j + 1) (E.cols : Int) p x (by omega) (by omega) (by omega)
            (by omega)
          have hnn2 := addr_nonneg k (E.cols : Int) p (by omega) (by omega)
          simp only
          rw [peek_upd_ne _ _ _ _ (by omega) hnn2 (by omega)]
          exact hsold k hk p hp1 hp2
        · intro p hp1 hp2
          simp only
          by_cases hpx : p = x
          · subst hpx
            rw [hsc, hcur', peek_upd_same, level_cell_succ]
          · have hnn2 := addr_nonneg (j + 1) (E.cols : Int) p (by omega) (by omega)
            rw [peek_upd_ne _ _ _ _ (by omega) hnn2 (by omega)]
            exact hsnew p hp1 (by omega)
    rw [hrun]
    refine ⟨_, rfl, hsize1, ?_, ?_, ?_⟩
    · simp only [hlast1, hlast']; ring
    · simp only [hcur1, hcur']; push_cast; ring
    · intro k hk p hp1 hp2
      by_cases hkj : k < j + 1
      · exact hold k hkj p hp1 hp2
      · have : k = j + 1 := by omega
        subst this
        exact hnew p hp1 hp2

/-- The bookkeeping level copies the weights of the last real level. -/
theorem vert_last_ok (E : Mat) (st : levels) (L : Nat → Int → weighted_int_t)
    (h1 : 1 ≤ E.rows) (h3 : 3 ≤ E.cols)
    (hs : ((E.rows : Int) + 1) * E.cols ≤ st.dp.size)
    (hl : st.last_level = ((E.rows : Int) - 1) * E.cols)
    (hc : st.current_level = (E.rows : Int) * E.cols)
    (hL : ∀ k : Nat, (k : Int) < E.rows → ∀ p, 1 ≤ p → p < (E.cols : Int) - 1 →
      st.dp.peek ((k : Int) * E.cols + p) = some (L k p)) :
    ∃ dp, for_up 1 ((E.cols : Int) - 1)
        (fun x dp =>
          (dp.read (st.last_level + x)).bind fun s =>
          dp.write (st.current_level + x) ⟨s.weight, x⟩) st.dp = .ok dp ∧
      dp.size = st.dp.size ∧
      (∀ k : Nat, (k : Int) < E.rows → ∀ p, 1 ≤ p → p < (E.cols : Int) - 1 →
        dp.peek ((k : Int) * E.cols + p) = some (L k p)) ∧
      ∀ p, 1 ≤ p → p < (E.cols : Int) - 1 →
        dp.peek ((E.rows : Int) * E.cols + p) = some ⟨(L (E.rows - 1) p).weight, p⟩ := by
  apply for_up_inv _ (fun x (t : dp_table) => t.size = st.dp.size ∧
      (∀ k : Nat, (k : Int) < E.rows → ∀ p, 1 ≤ p → p < (E.cols : Int) - 1 →
        t.peek ((k : Int) * E.cols + p) = some (L k p)) ∧
      ∀ p, 1 ≤ p → p < x →
        t.peek ((E.rows : Int) * E.cols + p) = some ⟨(L (E.rows - 1) p).weight, p⟩)
    1 _ _ (by omega)
  · exact ⟨rfl, hL, fun p a b => by omega⟩
  · intro x t hx1 hx2 ⟨hsz, hold, hnew⟩
    have hlast : st.last_level = ((E.rows - 1 : Nat) : Int) * E.cols := by
      rw [hl]; congr 1; omega
    have a1 := addr_nonneg (E.rows - 1) (E.cols : Int) x (by omega) (by omega)
    have a2 := addr_lt_size E.rows E.rows (E.cols : Int) x (le_refl _) (by omega) (by omega)
    have a3 := addr_lt_level (E.rows - 1) E.rows (E.cols : Int) x x (by omega) (by omega)
      (by omega) (by omega)
    have a4 := addr_nonneg E.rows (E.cols : Int) x (by omega) (by omega)
    have r : t.read (st.last_level + x) = .ok (L (E.rows - 1) x) := by
      apply read_ok _ _ _ (by omega) (by omega)
      rw [hlast]
      exact hold (E.rows - 1) (by omega) x hx1 hx2
    rw [r, bind_ok, write_ok _ _ _ (by omega) (by omega)]
    refine ⟨_, rfl, ?_, ?_, ?_⟩
    · simpa using hsz
    · intro k hk p hp1 hp2
      have b1 := addr_lt_level k E.rows (E.cols : Int) p x (by omega) (by omega) (by omega)
        (by omega)
      have b2 := addr_nonneg k (E.cols : Int) p (by omega) (by omega)
      rw [peek_upd_ne _ _ _ _ (by omega) b2 (by omega)]
      exact hold k hk p hp1 hp2
    · intro p hp1 hp2
      by_cases hpx : p = x
      · subst hpx; rw [hc, peek_upd_same]
      · have b2 := addr_nonneg E.rows (E.cols : Int) p (by omega) (by omega)
        rw [peek_upd_ne _ _ _ _ (by omega) b2 (by omega)]
        exact hnew p hp1 (by omega)

/-- The algorithm `std::min_element` on a range of written cells returns the first position
of least weight. -/
theorem min_element_ok (dp : dp_table) (first last : Int) (w : Int → weighted_int_t)
    (h : first < last) (h0 : 0 ≤ first) (hs : last ≤ dp.size)
    (hc : ∀ i, first ≤ i → i < last → dp.peek i = some (w i)) :
    ∃ r, min_element dp first last = .ok r ∧ first ≤ r ∧ r < last ∧
      (∀ i, first ≤ i → i < last → (w r).weight ≤ (w i).weight) ∧
      ∀ i, first ≤ i → i < r → (w r).weight < (w i).weight := by
  have e1 : ¬ last < first := by omega
  have e2 : ¬ first = last := by omega
  simp only [min_element, e1, e2, if_false]
  obtain ⟨r, hr, k1, k2, k3, k4⟩ := for_up_inv
    (fun i smallest =>
        (dp.read i).bind fun a =>
        (dp.read smallest).bind fun b =>
        .ok (if a.lt b then i else smallest))
    (fun i (sm : Int) => first ≤ sm ∧ sm < i ∧
      (∀ j, first ≤ j → j < i → (w sm).weight ≤ (w j).weight) ∧
      ∀ j, first ≤ j → j < sm → (w sm).weight < (w j).weight)
    (first + 1) last first (by omega)
    ⟨le_refl _, by omega, fun j a b => by
      have : j = first := by omega
      subst this; exact le_refl _, fun j a b => by omega⟩
    (by
      intro i sm hi1 hi2 ⟨s1, s2, s3, s4⟩
      beta_reduce
      rw [read_ok dp i (w i) (by omega) (by omega) (hc i (by omega) hi2),
        bind_ok, read_ok dp sm (w sm) (by omega) (by omega) (hc sm s1 (by omega)), bind_ok]
      refine ⟨_, rfl, ?_⟩
      by_cases hlt : (w i).weight < (w sm).weight
      · simp only [weighted_int_t.lt, hlt, decide_True, if_true]
        refine ⟨by omega, by omega, ?_, ?_⟩
        · intro j hj1 hj2
          by_cases hji : j = i
          · subst hji; exact le_refl _
          · have := s3 j hj1 (by omega); omega
        · intro j hj1 hj2
          have := s3 j hj1 hj2; omega
      · simp only [weighted_int_t.lt, hlt, decide_False, Bool.false_eq_true, if_false]
        refine ⟨s1, by omega, ?_, s4⟩
        intro j hj1 hj2
        by_cases hji : j = i
        · subst hji; omega
        · exact s3 j hj1 (by omega))
  exact ⟨r, hr, k1, k2, k3, k4⟩

/-! ## The predecessor choice -/

theorem pick_value (cmp : Int → Int → Bool) (ext : Int) (prev : Int → Int) (p : Int) :
    ((pick cmp ext prev p).value = p ∨
      ((pick cmp ext prev p).value = p - 1 ∧ 1 ≤ p - 1) ∨
      ((pick cmp ext prev p).value = p + 1 ∧ p + 1 < ext - 1)) ∧
    (pick cmp ext prev p).weight = prev (pick cmp ext prev p).value := by
  unfold pick
  by_cases ha : p - 1 ≥ 1 ∧ cmp (prev (p - 1)) (prev p) = true
  · by_cases hb : p + 1 < ext - 1 ∧ cmp (prev (p + 1)) (prev (p - 1)) = true
    · simp only [ha, hb, and_self, if_true]; simp [hb.1]
    · simp only [ha, hb, and_self, if_true, if_false]; simp
  · by_cases hb : p + 1 < ext - 1 ∧ cmp (prev (p + 1)) (prev p) = true
    · simp only [ha, hb, and_self, if_true, if_false]; simp [hb.1]
    · simp only [ha, hb, if_false]; simp

theorem pick_range (cmp : Int → Int → Bool) (ext : Int) (prev : Int → Int) (p : Int)
    (h1 : 1 ≤ p) (h2 : p < ext - 1) :
    1 ≤ (pick cmp ext prev p).value ∧ (pick cmp ext prev p).value < ext - 1 ∧
      |p - (pick cmp ext prev p).value| ≤ 1 := by
  have h := (pick_value cmp ext prev p).1
  rw [abs_le]
  omega

/-! ## Vectors -/

theorem getD_set_same (l : List Int) (i : Nat) (x d : Int) (h : i < l.length) :
    (l.set i x).getD i d = x := by
  simp [List.getD_eq_getElem?_getD, List.getElem?_set, h]

theorem getD_set_ne (l : List Int) (i j : Nat) (x d : Int) (h : i ≠ j) :
    (l.set i x).getD j d = l.getD j d := by
  simp [List.getD_eq_getElem?_getD, List.getElem?_set, h]

theorem vec_get_ok (v : List Int) (i : Int) (h0 : 0 ≤ i) (h1 : i < v.length) :
    vec_get v i = .ok (v.getD i.toNat 0) := by
  simp [vec_get, h0, h1]

theorem vec_set_ok (v : List Int) (i x : Int) (h0 : 0 ≤ i) (h1 : i < v.length) :
    vec_set v i x = .ok (v.set i.toNat x) := by
  simp [vec_set, h0, h1]

/-- From level 1 on, the predecessor a cell records is an eligible coordinate next to it. -/
theorem level_cell_value (add : Int → Int → Int) (cmp : Int → Int → Bool) (ext : Int)
    (en : Nat → Int → Int) (k : Nat) (p : Int) (hk : 1 ≤ k) (h1 : 1 ≤ p) (h2 : p < ext - 1) :
    1 ≤ (level_cell add cmp ext en k p).value ∧ (level_cell add cmp ext en k p).value < ext - 1 ∧
      |p - (level_cell add cmp ext en k p).value| ≤ 1 := by
  obtain ⟨j, rfl⟩ : ∃ j, k = j + 1 := ⟨k - 1, by omega⟩
  rw [level_cell_succ]
  exact pick_range cmp ext _ p h1 h2

/-- The backtrace writes every entry of the path: the last entry is the coordinate `pl` it
starts from, every other entry is the predecessor recorded for the entry after it. -/
theorem vert_back_ok (E : Mat) (dp : dp_table) (L : Nat → Int → weighted_int_t)
    (path0 : List Int) (pl : Int) (h1 : 1 ≤ E.rows) (h3 : 3 ≤ E.cols)
    (hs : ((E.rows : Int) + 1) * E.cols ≤ dp.size)
    (hL : ∀ k : Nat, (k : Int) < E.rows → ∀ p, 1 ≤ p → p < (E.cols : Int) - 1 →
      dp.peek ((k : Int) * E.cols + p) = some (L k p))
    (hLr : ∀ k : Nat, 1 ≤ k → ∀ p, 1 ≤ p → p < (E.cols : Int) - 1 →
      1 ≤ (L k p).value ∧ (L k p).value < (E.cols : Int) - 1)
    (hlen : path0.length = E.rows) (hpl : path0.getD (E.rows - 1) 0 = pl)
    (hpl1 : 1 ≤ pl) (hpl2 : pl < (E.cols : Int) - 1) :
    ∃ tr, for_down ((E.rows : Int) - 2) 0
        (fun y (tr : trace) =>
          (vec_get tr.path (y + 1)).bind fun p =>
          (dp.read (tr.last_level + p)).bind fun c =>
          (vec_set tr.path y c.value).bind fun path =>
          .ok (⟨path, tr.last_level - (E.cols : Int)⟩ : trace))
        (⟨path0, ((E.rows : Int) - 1) * E.cols⟩ : trace) = .ok tr ∧
      tr.path.length = E.rows ∧ tr.path.getD (E.rows - 1) 0 = pl ∧
      (∀ l : Nat, (-1 : Int) < l → l < E.rows →
        1 ≤ tr.path.getD l 0 ∧ tr.path.getD l 0 < (E.cols : Int) - 1) ∧
      ∀ l : Nat, (-1 : Int) < l → l + 1 < E.rows →
        tr.path.getD l 0 = (L (l + 1) (tr.path.getD (l + 1) 0)).value := by
  obtain ⟨tr, hr, k1, -, k3, k4, k5⟩ := for_down_inv
    (fun y (tr : trace) =>
          (vec_get tr.path (y + 1)).bind fun p =>
          (dp.read (tr.last_level + p)).bind fun c =>
          (vec_set tr.path y c.value).bind fun path =>
          .ok (⟨path, tr.last_level - (E.cols : Int)⟩ : trace))
    (fun y (tr : trace) => tr.path.length = E.rows ∧ tr.last_level = (y + 1) * E.cols ∧
      tr.path.getD (E.rows - 1) 0 = pl ∧
      (∀ l : Nat, y < l → l < E.rows →
        1 ≤ tr.path.getD l 0 ∧ tr.path.getD l 0 < (E.cols : Int) - 1) ∧
      ∀ l : Nat, y < l → l + 1 < E.rows →
        tr.path.getD l 0 = (L (l + 1) (tr.path.getD (l + 1) 0)).value)
    ((E.rows : Int) - 2) 0 ⟨path0, ((E.rows : Int) - 1) * E.cols⟩ (by omega)
    ⟨hlen, by simp only; ring, hpl, fun l a b => by
      have : l = E.rows - 1 := by omega
      subst this; rw [hpl]; exact ⟨hpl1, hpl2⟩, fun l a b => by omega⟩
    (by
      intro y tr hy1 hy2 ⟨i1, i2, i3, i4, i5⟩
      obtain ⟨j, rfl⟩ : ∃ j : Nat, y = (j : Int) := ⟨y.toNat, by omega⟩
      have hj : j + 1 < E.rows := by omega
      have e1 : ((j : Int) + 1).toNat = j + 1 := by omega
      have hp := i4 (j + 1) (by push_cast; omega) hj
      have a1 := addr_nonneg (j + 1) (E.cols : Int) (tr.path.getD (j + 1) 0) (by omega)
        (by omega)
      have a2 := addr_lt_size (j + 1) E.rows (E.cols : Int) (tr.path.getD (j + 1) 0) (by omega)
        (by omega) (by omega)
      have hv := hLr (j + 1) (by omega) _ hp.1 hp.2
      beta_reduce
      rw [vec_get_ok _ _ (by omega) (by omega), bind_ok, e1, i2]
      rw [read_ok dp _ (L (j + 1) (tr.path.getD (j + 1) 0)) (by push_cast at a1; omega)
          (by push_cast at a2; omega)
          (by have := hL (j + 1) (by omega) _ hp.1 hp.2; simpa using this),
        bind_ok, vec_set_ok _ _ _ (by omega) (by omega), bind_ok]
      refine ⟨_, rfl, ?_, ?_, ?_, ?_, ?_⟩
      · simpa using i1
      · simp only; ring
      · simp only [Int.toNat_ofNat]
        rw [getD_set_ne _ _ _ _ _ (by omega)]; exact i3
      · intro l hl1 hl2
        simp only [Int.toNat_ofNat]
        by_cases hlj : l = j
        · subst hlj; rw [getD_set_same _ _ _ _ (by omega)]; exact hv
        · rw [getD_set_ne _ _ _ _ _ (by omega)]; exact i4 l (by omega) hl2
      · intro l hl1 hl2
        simp only [Int.toNat_ofNat]
        by_cases hlj : l = j
        · subst hlj
          rw [getD_set_same _ _ _ _ (by omega), getD_set_ne _ _ _ _ _ (by omega)]
        · rw [getD_set_ne _ _ _ _ _ (by omega), getD_set_ne _ _ _ _ _ (by omega)]
          exact i5 l (by omega) hl2)
  exact ⟨tr, hr, k1, k3, k4, k5⟩

/-- What a run of `find_vert_seam` returns, in terms of the recurrence: the total is the
least weight of the last level, taken at its first position `pl`; the path ends at `pl` and
follows the recorded predecessors. -/
theorem vert_on_spec (add : Int → Int → Int) (cmp : Int → Int → Bool) (E : Mat)
    (dp0 : dp_table) (owned : Bool) (h1 : 1 ≤ E.rows) (h3 : 3 ≤ E.cols)
    (hsize0 : (E.rows + 1) * E.cols ≤ dp0.size) :
    ∃ r pl, find_vert_seam_on add E dp0 owned cmp = .ok r ∧
      follows_recurrence add cmp E.rows E.cols (vert_energy E) owned r pl := by
  have hsz : ((E.rows : Int) + 1) * E.cols ≤ dp0.size := by exact_mod_cast hsize0
  have hcols : (E.cols : Int) ≤ dp0.size := by
    have := addr_lt_size 0 E.rows (E.cols : Int) ((E.cols : Int) - 1) (by omega) (by omega)
      (by omega)
    omega
  obtain ⟨dp1, r1, s1, c1⟩ := vert_init_ok E dp0 h1 (by omega) hcols
  obtain ⟨st, r2, s2, l2, cu2, c2⟩ := vert_fill_ok add cmp E dp1 h1 h3 (by rw [s1]; exact hsize0) c1
  obtain ⟨dp3, r3, s3, c3, n3⟩ := vert_last_ok E st
    (level_cell add cmp E.cols (vert_energy E)) h1 h3 (by omega) l2 cu2 c2
  have b1 := addr_nonneg E.rows (E.cols : Int) 1 (by omega) (by omega)
  have b2 := addr_lt_size E.rows E.rows (E.cols : Int) ((E.cols : Int) - 1) (le_refl _)
    (by omega) (by omega)
  obtain ⟨e_min, r4, m1, m2, m3, m4⟩ := min_element_ok dp3
    ((E.rows : Int) * E.cols + 1) ((E.rows : Int) * E.cols + ((E.cols : Int) - 1))
    (fun i => ⟨(level_cell add cmp E.cols (vert_energy E) (E.rows - 1)
      (i - (E.rows : Int) * E.cols)).weight, i - (E.rows : Int) * E.cols⟩)
    (by omega) (by omega) (by omega)
    (fun i hi1 hi2 => by
      have := n3 (i - (E.rows : Int) * E.cols) (by omega) (by omega)
      rw [← this]; congr 1; ring)
  have r5 : dp3.read e_min = .ok ⟨(level_cell add cmp E.cols (vert_energy E) (E.rows - 1)
      (e_min - (E.rows : Int) * E.cols)).weight, e_min - (E.rows : Int) * E.cols⟩ := by
    apply read_ok _ _ _ (by omega) (by omega)
    have := n3 (e_min - (E.rows : Int) * E.cols) (by omega) (by omega)
    rw [← this]; congr 1; ring
  have r6 : vec_set (List.replicate E.rows 0) ((E.rows : Int) - 1)
      (e_min - (E.rows : Int) * E.cols) =
      .ok ((List.replicate E.rows 0).set (E.rows - 1) (e_min - (E.rows : Int) * E.cols)) := by
    rw [vec_set_ok _ _ _ (by omega) (by simp)]
    congr 2; omega
  obtain ⟨tr, r7, t1, t2, t3, t4⟩ := vert_back_ok E dp3
    (level_cell add cmp E.cols (vert_energy E))
    ((List.replicate E.rows 0).set (E.rows - 1) (e_min - (E.rows : Int) * E.cols))
    (e_min - (E.rows : Int) * E.cols) h1 h3 (by omega) c3
    (fun k hk p hp1 hp2 =>
      ⟨(level_cell_value add cmp E.cols (vert_energy E) k p hk hp1 hp2).1,
       (level_cell_value add cmp E.cols (vert_energy E) k p hk hp1 hp2).2.1⟩)
    (by simp) (getD_set_same _ _ _ _ (by simp; omega)) (by omega) (by omega)
  refine ⟨⟨⟨tr.path, (level_cell add cmp E.cols (vert_energy E) (E.rows - 1)
      (e_min - (E.rows : Int) * E.cols)).weight⟩, dp3, owned⟩,
    e_min - (E.rows : Int) * E.cols, ?_, rfl, t1, by omega, by omega, ?_, ?_, rfl, t2,
    fun l hl => t3 l (by omega) hl, fun l hl => t4 l (by omega) hl⟩
  · unfold find_vert_seam_on
    simp only [r1, bind_ok, r2, r3]
    simp only [cu2, l2, r4, bind_ok, r5, r6, r7]
  · intro p hp1 hp2
    have := m3 ((E.rows : Int) * E.cols + p) (by omega) (by omega)
    simpa using this
  · intro p hp1 hp2
    have := m4 ((E.rows : Int) * E.cols + p) (by omega) (by omega)
    simpa using this

/-! ## The horizontal search is the vertical search on the transposed map -/

theorem at_transpose (E : Mat) (y x : Int) (h : x < E.cols ∨ x = 0) :
    E.transpose.at x y = E.at y x := by
  have hc : (E.cols : Int) ≤ ((E.cols * E.chans : Nat) : Int) := by
    have := Nat.le_mul_of_pos_right E.cols E.chans_pos
    exact_mod_cast this
  have hz : (0 : Int) < ((E.cols * E.chans : Nat) : Int) ↔ (0 : Int) < E.cols := by
    have := E.chans_pos
    constructor
    · intro h0
      have h0' : 0 < E.cols * E.chans := by exact_mod_cast h0
      have := Nat.pos_of_mul_pos_right h0'
      omega
    · intro h0; omega
  push_cast at hc hz
  by_cases c1 : 0 ≤ y ∧ y < E.rows ∧ 0 ≤ x ∧ x < (E.cols : Int) * E.chans
  · have c2 : 0 ≤ x ∧ x < (E.cols : Int) ∧ 0 ≤ y ∧ y < (E.rows : Int) * (1 : Nat) := by
      refine ⟨c1.2.2.1, ?_, c1.1, by simpa using c1.2.1⟩
      rcases h with h | h
      · exact h
      · subst h; exact hz.1 c1.2.2.2
    simp only [Mat.at, Mat.transpose, c1, c2, and_self, if_true]
  · have c2 : ¬ (0 ≤ x ∧ x < (E.cols : Int) ∧ 0 ≤ y ∧ y < (E.rows : Int) * (1 : Nat)) := by
      intro c2
      apply c1
      exact ⟨c2.2.2.1, by simpa using c2.2.2.2, c2.1, by omega⟩
    simp only [Mat.at, Mat.transpose, c1, c2, if_false]

/-- The two searches are mirror images: `find_hori_seam` on a map is `find_vert_seam` on
the transposed map, on every table and for every comparator. -/
theorem hori_on_eq_vert_on (add : Int → Int → Int) (cmp : Int → Int → Bool) (E : Mat)
    (dp : dp_table) (owned : Bool) :
    find_hori_seam_on add E dp owned cmp = find_vert_seam_on add E.transpose dp owned cmp := by
  have e1 : E.transpose.rows = E.cols := rfl
  have e2 : E.transpose.cols = E.rows := rfl
  have hinit : ∀ t : dp_table,
      for_up 1 ((E.rows : Int) - 1)
        (fun y dp => (E.at y 0).bind fun e => dp.write y ⟨e, -1⟩) t =
      for_up 1 ((E.rows : Int) - 1)
        (fun x dp => (E.transpose.at 0 x).bind fun e => dp.write x ⟨e, -1⟩) t := by
    intro t
    apply for_up_congr
    intro j u _ _
    rw [at_transpose E j 0 (Or.inr rfl)]
  have hfill : ∀ st : levels,
      for_up 1 (E.cols : Int)
        (fun x st =>
          (for_up 1 ((E.rows : Int) - 1)
            (fun y st => relax add cmp E.rows (E.at y x) y st) st).bind fun st =>
          .ok { st with last_level := st.last_level + (E.rows : Int),
                        current_level := st.current_level + (E.rows : Int) }) st =
      for_up 1 (E.cols : Int)
        (fun y st =>
          (for_up 1 ((E.rows : Int) - 1)
            (fun x st => relax add cmp E.rows (E.transpose.at y x) x st) st).bind fun st =>
          .ok { st with last_level := st.last_level + (E.rows : Int),
                        current_level := st.current_level + (E.rows : Int) }) st := by
    intro st
    apply for_up_congr
    intro j u _ hj
    have : for_up 1 ((E.rows : Int) - 1) (fun y st => relax add cmp E.rows (E.at y j) y st) u =
        for_up 1 ((E.rows : Int) - 1)
          (fun x st => relax add cmp E.rows (E.transpose.at j x) x st) u := by
      apply for_up_congr
      intro i v _ _
      rw [at_transpose E i j (Or.inl hj)]
    simp only [this]
  unfold find_hori_seam_on find_vert_seam_on
  simp only [e1, e2, hinit, hfill]

theorem hori_on_spec (add : Int → Int → Int) (cmp : Int → Int → Bool) (E : Mat)
    (dp0 : dp_table) (owned : Bool) (h3 : 3 ≤ E.rows) (h1 : 1 ≤ E.cols)
    (hsize0 : (E.cols + 1) * E.rows ≤ dp0.size) :
    ∃ r pl, find_hori_seam_on add E dp0 owned cmp = .ok r ∧
      follows_recurrence add cmp E.cols E.rows (hori_energy E) owned r pl := by
  rw [hori_on_eq_vert_on]
  exact vert_on_spec add cmp E.transpose dp0 owned h1 h3 hsize0

/-- The call `find_vert_seam(energy_image, buffer, cmp)` on a map of at least one row and
three columns returns the seam the recurrence determines. -/
theorem vert_run_spec (add : Int → Int → Int) (cmp : Int → Int → Bool) (E : Mat)
    (buffer : Option dp_table) (h1 : 1 ≤ E.rows) (h3 : 3 ≤ E.cols)
    (hfit : fits ((E.rows + 1) * E.cols) buffer) :
    ∃ r pl, find_vert_seam_run add E buffer cmp = .ok r ∧
      follows_recurrence add cmp E.rows E.cols (vert_energy E) buffer.isNone r pl := by
  cases buffer with
  | none => exact vert_on_spec add cmp E _ true h1 h3 (le_refl _)
  | some b => exact vert_on_spec add cmp E b false h1 h3 hfit

/-- The call `find_hori_seam(energy_image, buffer, cmp)` on a map of at least three rows and
one column returns the seam the recurrence determines. -/
theorem hori_run_spec (add : Int → Int → Int) (cmp : Int → Int → Bool) (E : Mat)
    (buffer : Option dp_table) (h3 : 3 ≤ E.rows) (h1 : 1 ≤ E.cols)
    (hfit : fits ((E.cols + 1) * E.rows) buffer) :
    ∃ r pl, find_hori_seam_run add E buffer cmp = .ok r ∧
      follows_recurrence add cmp E.cols E.rows (hori_energy E) buffer.isNone r pl := by
  cases buffer with
  | none => exact hori_on_spec add cmp E _ true h3 h1 (le_refl _)
  | some b => exact hori_on_spec add cmp E b false h3 h1 hfit

/-! ## Properties of the seam the recurrence determines -/

@[simp] theorem upd_rows (m : Mat) (r k : Nat) (v : Int) : (m.upd r k v).rows = m.rows := rfl

@[simp] theorem upd_cols (m : Mat) (r k : Nat) (v : Int) : (m.upd r k v).cols = m.cols := rfl

@[simp] theorem upd_chans (m : Mat) (r k : Nat) (v : Int) : (m.upd r k v).chans = m.chans := rfl

theorem upd_data (m : Mat) (r k : Nat) (v : Int) (r' k' : Nat) :
    (m.upd r k v).data r' k' = if r' = r ∧ k' = k then v else m.data r' k' := rfl

/-- Element indices of distinct channels of pixels are distinct. -/
theorem chan_index_inj (ch x c x' c' : Nat) (hc : c < ch) (hc' : c' < ch)
    (h : ch * x + c = ch * x' + c') : x = x' ∧ c = c' := by
  have h1 : (ch * x + c) / ch = x := by
    rw [Nat.mul_add_div (by omega), Nat.div_eq_of_lt hc]; rfl
  have h2 : (ch * x' + c') / ch = x' := by
    rw [Nat.mul_add_div (by omega), Nat.div_eq_of_lt hc']; rfl
  have hx : x = x' := by rw [← h1, ← h2, h]
  subst hx
  exact ⟨rfl, by omega⟩

theorem chan_index_lt (ch x c n : Nat) (hc : c < ch) (hx : x < n) : ch * x + c < n * ch := by
  have : ch * (x + 1) ≤ ch * n := Nat.mul_le_mul_left ch (by omega)
  rw [Nat.mul_comm n ch]
  rw [Nat.mul_add] at this
  omega

theorem put_ok (m : Mat) (y x c : Nat) (v : Int) (hy : y < m.rows) (hx : x < m.cols)
    (hc : c < m.chans) :
    m.put (y : Int) ((m.chans : Int) * (x : Int) + (c : Int)) v =
      .ok (m.upd y (m.chans * x + c) v) := by
  have h := chan_index_lt m.chans x c m.cols hc hx
  have h' : ((m.chans : Int) * (x : Int) + (c : Int)) < (m.cols : Int) * (m.chans : Int) := by
    exact_mod_cast h
  have h0 : (0 : Int) ≤ (m.chans : Int) * (x : Int) + (c : Int) := by positivity
  have e : ((m.chans : Int) * (x : Int) + (c : Int)).toNat = m.chans * x + c := by
    have : ((m.chans : Int) * (x : Int) + (c : Int)) = ((m.chans * x + c : Nat) : Int) := by
      push_cast; ring
    rw [this]; exact Int.toNat_ofNat _
  simp [Mat.put, hy, h', h0, e]

theorem at_pixel_ok (m : Mat) (y x c : Nat) (hy : y < m.rows) (hx : x < m.cols)
    (hc : c < m.chans) :
    m.at (y : Int) ((m.chans : Int) * (x : Int) + (c : Int)) = .ok (m.pixel y x c) := by
  have h := chan_index_lt m.chans x c m.cols hc hx
  have h' : ((m.chans : Int) * (x : Int) + (c : Int)) < (m.cols : Int) * (m.chans : Int) := by
    exact_mod_cast h
  have h0 : (0 : Int) ≤ (m.chans : Int) * (x : Int) + (c : Int) := by positivity
  have e : ((m.chans : Int) * (x : Int) + (c : Int)).toNat = m.chans * x + c := by
    have : ((m.chans : Int) * (x : Int) + (c : Int)) = ((m.chans * x + c : Nat) : Int) := by
      push_cast; ring
    rw [this]; exact Int.toNat_ofNat _
  simp [Mat.at, Mat.pixel, hy, h', h0, e]

/-- The order in which the three nested loops visit the channels of the pixels. -/
theorem fill_loops_ok (res0 : Mat) (G : Nat → Nat → Nat → Int) :
    ∃ out,
      for_up 0 (res0.rows : Int)
        (fun y res =>
          for_up 0 (res0.cols : Int)
            (fun x res =>
              for_up 0 (res0.chans : Int)
                (fun c res =>
                  res.put y ((res0.chans : Int) * x + c) (G y.toNat x.toNat c.toNat))
                res)
            res)
        res0 = .ok out ∧
      out.rows = res0.rows ∧ out.cols = res0.cols ∧ out.chans = res0.chans ∧
      ∀ y x c : Nat, y < res0.rows → x < res0.cols → c < res0.chans →
        out.pixel y x c = G y x c := by
  -- `done y x c` holds of the channels written before the iteration at `(y, x, c)`
  let done : Int → Int → Int → Nat → Nat → Nat → Prop := fun y x c y' x' c' =>
    (y' : Int) < y ∨ ((y' : Int) = y ∧ ((x' : Int) < x ∨ ((x' : Int) = x ∧ (c' : Int) < c)))
  let Inv : Int → Int → Int → Mat → Prop := fun y x c res =>
    res.rows = res0.rows ∧ res.cols = res0.cols ∧ res.chans = res0.chans ∧
    ∀ y' x' c' : Nat, y' < res0.rows → x' < res0.cols → c' < res0.chans →
      done y x c y' x' c' → res.pixel y' x' c' = G y' x' c'
  have inner : ∀ (y x : Int) (res : Mat), 0 ≤ y → y < res0.rows → 0 ≤ x → x < res0.cols →
      Inv y x 0 res →
      ∃ out, for_up 0 (res0.chans : Int)
          (fun c res =>
            res.put y ((res0.chans : Int) * x + c) (G y.toNat x.toNat c.toNat)) res = .ok out ∧
        Inv y x res0.chans out := by
    intro y x res hy0 hy hx0 hx hinv
    obtain ⟨yn, rfl⟩ : ∃ n : Nat, y = n := ⟨y.toNat, by omega⟩
    obtain ⟨xn, rfl⟩ : ∃ n : Nat, x = n := ⟨x.toNat, by omega⟩
    apply for_up_inv _ (fun c res => Inv yn xn c res) 0 _ res (by omega) hinv
    intro c t hc0 hc ⟨d1, d2, d3, d4⟩
    obtain ⟨cn, rfl⟩ : ∃ n : Nat, c = n := ⟨c.toNat, by omega⟩
    have hp := put_ok t yn xn cn (G yn xn cn) (by omega) (by omega) (by omega)
    rw [d3] at hp
    simp only [Int.toNat_ofNat]
    rw [hp]
    refine ⟨_, rfl, by simpa using d1, by simpa using d2, by simpa using d3, ?_⟩
    intro y' x' c' hy' hx' hc' hd
    simp only [Mat.pixel, upd_data, upd_chans, d3]
    by_cases heq : y' = yn ∧ res0.chans * x' + c' = res0.chans * xn + cn
    · obtain ⟨e1, e2⟩ := heq
      obtain ⟨e3, e4⟩ := chan_index_inj _ _ _ _ _ hc' (by omega) e2
      subst e1 e3 e4
      simp
    · rw [if_neg heq]
      have := d4 y' x' c' hy' hx' hc' (by
        simp only [done] at hd ⊢
        rcases hd with h | ⟨h1, h | ⟨h2, h3⟩⟩
        · exact Or.inl h
        · exact Or.inr ⟨h1, Or.inl h⟩
        · refine Or.inr ⟨h1, Or.inr ⟨h2, ?_⟩⟩
          have : ¬ (c' = cn) := by
            intro hcc
            apply heq
            have e1 : y' = yn := by omega
            have e2 : x' = xn := by omega
            subst e1 e2 hcc
            exact ⟨rfl, rfl⟩
          omega)
      simpa [Mat.pixel, d3] using this
  have middle : ∀ (y : Int) (res : Mat), 0 ≤ y → y < res0.rows → Inv y 0 0 res →
      ∃ out, for_up 0 (res0.cols : Int)
          (fun x res =>
            for_up 0 (res0.chans : Int)
              (fun c res =>
                res.put y ((res0.chans : Int) * x + c) (G y.toNat x.toNat c.toNat))
              res) res = .ok out ∧
        Inv (y + 1) 0 0 out := by
    intro y res hy0 hy hinv
    obtain ⟨out, h1, h2⟩ := for_up_inv _ (fun x res => Inv y x 0 res) 0 (res0.cols : Int) res
      (by omega) hinv (by
        intro x t hx0 hx ht
        obtain ⟨out, h1, d1, d2, d3, d4⟩ := inner y x t hy0 hy hx0 hx ht
        refine ⟨out, h1, d1, d2, d3, ?_⟩
        intro y' x' c' hy' hx' hc' hd
        apply d4 y' x' c' hy' hx' hc'
        simp only [done] at hd ⊢
        omega)
    refine ⟨out, h1, h2.1, h2.2.1, h2.2.2.1, ?_⟩
    intro y' x' c' hy' hx' hc' hd
    apply h2.2.2.2 y' x' c' hy' hx' hc'
    simp only [done] at hd ⊢
    omega
  obtain ⟨out, h1, h2⟩ := for_up_inv _ (fun y res => Inv y 0 0 res) 0 (res0.rows : Int) res0
    (by omega) ⟨rfl, rfl, rfl, fun y' x' c' _ _ _ hd => by simp only [done] at hd; omega⟩
    (fun y t hy0 hy ht => middle y t hy0 hy ht)
  refine ⟨out, h1, h2.1, h2.2.1, h2.2.2.1, ?_⟩
  intro y x c hy hx hc
  apply h2.2.2.2 y x c hy hx hc
  simp only [done]
  omega

/-- Two nested loops over the pixels of `res0` whose body stores `G y x c` in every channel
of pixel `(y, x)` produce the matrix with these pixels. -/
theorem fill_by (res0 : Mat) (G : Nat → Nat → Nat → Int)
    (body : Int → Int → Mat → Except Fault Mat)
    (hbody : ∀ (y x : Nat) (t : Mat), y < res0.rows → x < res0.cols →
      body y x t =
        for_up 0 (res0.chans : Int)
          (fun c res => res.put y ((res0.chans : Int) * x + c) (G y x c.toNat)) t) :
    ∃ out,
      for_up 0 (res0.rows : Int)
        (fun y res => for_up 0 (res0.cols : Int) (fun x res => body y x res) res) res0 =
        .ok out ∧
      out.rows = res0.rows ∧ out.cols = res0.cols ∧ out.chans = res0.chans ∧
      ∀ y x c : Nat, y < res0.rows → x < res0.cols → c < res0.chans →
        out.pixel y x c = G y x c := by
  obtain ⟨out, hrun, h⟩ := fill_loops_ok res0 G
  refine ⟨out, ?_, h⟩
  rw [← hrun]
  apply for_up_congr
  intro y t hy0 hy
  apply for_up_congr
  intro x u hx0 hx
  obtain ⟨yn, rfl⟩ : ∃ n : Nat, y = n := ⟨y.toNat, by omega⟩
  obtain ⟨xn, rfl⟩ : ∃ n : Nat, x = n := ⟨x.toNat, by omega⟩
  rw [hbody yn xn u (by omega) (by omega)]
  simp

theorem create_ok (rows cols : Nat) (like : Mat) :
    ∃ res0, Mat.create rows cols like = .ok res0 ∧ res0.rows = rows ∧ res0.cols = cols ∧
      res0.chans = like.chans := by
  refine ⟨{ rows := rows, cols := cols, chans := like.chans, chans_pos := like.chans_pos,
            data := fun _ _ => 0 }, ?_, rfl, rfl, rfl⟩
  simp [Mat.create]

/-- The inner loop that copies the channels of source pixel `(sy, sx)` to pixel `(y, x)`. -/
theorem copy_channels (image : Mat) (y x sy sx : Nat) (isy isx : Int) (t : Mat)
    (hsy : isy = sy) (hsx : isx = sx) (hy : sy < image.rows) (hx : sx < image.cols) :
    for_up 0 (image.chans : Int)
        (fun c res =>
          (image.at isy ((image.chans : Int) * isx + c)).bind fun v =>
          res.put y ((image.chans : Int) * x + c) v) t =
      for_up 0 (image.chans : Int)
        (fun c res => res.put y ((image.chans : Int) * x + c) (image.pixel sy sx c.toNat)) t := by
  subst hsy hsx
  apply for_up_congr
  intro c u hc0 hc
  obtain ⟨cn, rfl⟩ : ∃ n : Nat, c = n := ⟨c.toNat, by omega⟩
  rw [at_pixel_ok image sy sx cn hy hx (by omega)]
  simp

/-- What `remove_path_vert` returns: row `y` of the image without its pixel `path[y]`. -/
theorem remove_path_vert_ok (image : Mat) (path : List Int) (hc : 1 ≤ image.cols)
    (hlen : path.length = image.rows)
    (hp : ∀ y, y < image.rows → 0 ≤ path.getD y 0 ∧ path.getD y 0 < image.cols) :
    ∃ out, remove_path_vert image.chans image path = .ok out ∧
      out.rows = image.rows ∧ out.cols = image.cols - 1 ∧ out.chans = image.chans ∧
      ∀ y x c : Nat, y < image.rows → x < image.cols - 1 → c < image.chans →
        out.pixel y x c =
          if (x : Int) < path.getD y 0 then image.pixel y x c else image.pixel y (x + 1) c := by
  obtain ⟨res0, hcreate, hr, hcl, hch⟩ := create_ok image.rows (image.cols - 1) image
  have hcast : ((image.cols - 1 : Nat) : Int) = (image.cols : Int) - 1 := by omega
  obtain ⟨out, hrun, h1, h2, h3, h4⟩ := fill_by res0
    (fun y x c =>
      if (x : Int) < path.getD y 0 then image.pixel y x c else image.pixel y (x + 1) c)
    (fun y x result =>
      (vec_get path y).bind fun py =>
      let img_x : Int := if x ≥ py then x + 1 else x
      for_up 0 (image.chans : Int)
        (fun c result =>
          (image.at y ((image.chans : Int) * img_x + c)).bind fun v =>
          result.put y ((image.chans : Int) * x + c) v)
        result)
    (by
      intro y x t hy hx
      rw [hr] at hy
      rw [hcl] at hx
      have hpy := hp y hy
      beta_reduce
      rw [vec_get_ok path y (by omega) (by omega), bind_ok, hch]
      simp only [Int.toNat_ofNat]
      by_cases hlt : (x : Int) < path.getD y 0
      · have e : ¬ ((x : Int) ≥ path.getD y 0) := by omega
        simp only [e, hlt, if_true, if_false]
        exact copy_channels image y x y x _ _ t rfl rfl hy (by omega)
      · have e : (x : Int) ≥ path.getD y 0 := by omega
        simp only [e, hlt, if_true, if_false]
        exact copy_channels image y x y (x + 1) _ _ t rfl (by push_cast; ring) hy (by omega))
  refine ⟨out, ?_, by omega, by omega, by omega, ?_⟩
  · unfold remove_path_vert
    rw [← hcast, hcreate, bind_ok, ← hrun]
  · intro y x c hy hx hcc
    exact h4 y x c (by omega) (by omega) (by omega)

/-- What `remove_path_hori` returns: column `x` of the image without its pixel `path[x]`. -/
theorem remove_path_hori_ok (image : Mat) (path : List Int) (hc : 1 ≤ image.rows)
    (hlen : path.length = image.cols)
    (hp : ∀ x, x < image.cols → 0 ≤ path.getD x 0 ∧ path.getD x 0 < image.rows) :
    ∃ out, remove_path_hori image.chans image path = .ok out ∧
      out.rows = image.rows - 1 ∧ out.cols = image.cols ∧ out.chans = image.chans ∧
      ∀ y x c : Nat, y < image.rows - 1 → x < image.cols → c < image.chans →
        out.pixel y x c =
          if (y : Int) < path.getD x 0 then image.pixel y x c else image.pixel (y + 1) x c := by
  obtain ⟨res0, hcreate, hr, hcl, hch⟩ := create_ok (image.rows - 1) image.cols image
  have hcast : ((image.rows - 1 : Nat) : Int) = (image.rows : Int) - 1 := by omega
  obtain ⟨out, hrun, h1, h2, h3, h4⟩ := fill_by res0
    (fun y x c =>
      if (y : Int) < path.getD x 0 then image.pixel y x c else image.pixel (y + 1) x c)
    (fun y x result =>
      (vec_get path x).bind fun px =>
      let img_y : Int := if y ≥ px then y + 1 else y
      for_up 0 (image.chans : Int)
        (fun c result =>
          (image.at img_y ((image.chans : Int) * x + c)).bind fun v =>
          result.put y ((image.chans : Int) * x + c) v)
        result)
    (by
      intro y x t hy hx
      rw [hr] at hy
      rw [hcl] at hx
      have hpx := hp x hx
      beta_reduce
      rw [vec_get_ok path x (by omega) (by omega), bind_ok, hch]
      simp only [Int.toNat_ofNat]
      by_cases hlt : (y : Int) < path.getD x 0
      · have e : ¬ ((y : Int) ≥ path.getD x 0) := by omega
        simp only [e, hlt, if_true, if_false]
        exact copy_channels image y x y x _ _ t rfl rfl (by omega) hx
      · have e : (y : Int) ≥ path.getD x 0 := by omega
        simp only [e, hlt, if_true, if_false]
        exact copy_channels image y x (y + 1) x _ _ t (by push_cast; ring) rfl (by omega) hx)
  refine ⟨out, ?_, by omega, by omega, by omega, ?_⟩
  · unfold remove_path_hori
    rw [← hcast, hcreate, bind_ok, ← hrun]
  · intro y x c hy hx hcc
    exact h4 y x c (by omega) (by omega) (by omega)

/-- The inner loop that stores, in every channel of pixel `(y, x)`, the truncated average
of source pixels `(ay, ax)` and `(by, bx)`. -/
theorem average_channels (image : Mat) (y x ay ax by' bx : Nat) (iay iax iby ibx : Int)
    (t : Mat) (h1 : iay = ay) (h2 : iax = ax) (h3 : iby = by') (h4 : ibx = bx)
    (hay : ay < image.rows) (hax : ax < image.cols) (hby : by' < image.rows)
    (hbx : bx < image.cols) :
    for_up 0 (image.chans : Int)
        (fun c res =>
          (image.at iay ((image.chans : Int) * iax + c)).bind fun a =>
          (image.at iby ((image.chans : Int) * ibx + c)).bind fun b =>
          res.put y ((image.chans : Int) * x + c) (Int.tdiv (a + b) 2)) t =
      for_up 0 (image.chans : Int)
        (fun c res => res.put y ((image.chans : Int) * x + c)
          (Int.tdiv (image.pixel ay ax c.toNat + image.pixel by' bx c.toNat) 2)) t := by
  subst h1 h2 h3 h4
  apply for_up_congr
  intro c u hc0 hc
  obtain ⟨cn, rfl⟩ : ∃ n : Nat, c = n := ⟨c.toNat, by omega⟩
  rw [at_pixel_ok image ay ax cn hay hax (by omega),
    at_pixel_ok image by' bx cn hby hbx (by omega)]
  simp

/-- What `insert_path_vert` returns: row `y` of the image with, at column `path[y]`, a new
pixel that averages its two neighbours, the division truncating toward zero. -/
theorem insert_path_vert_ok (image : Mat) (path : List Int)
    (hlen : path.length = image.rows)
    (hp : ∀ y, y < image.rows → 1 ≤ path.getD y 0 ∧ path.getD y 0 ≤ (image.cols : Int) - 1) :
    ∃ out, insert_path_vert image.chans image path = .ok out ∧
      out.rows = image.rows ∧ out.cols = image.cols + 1 ∧ out.chans = image.chans ∧
      ∀ y x c : Nat, y < image.rows → x < image.cols + 1 → c < image.chans →
        out.pixel y x c =
          if (x : Int) < path.getD y 0 then image.pixel y x c
          else if (x : Int) = path.getD y 0 then
            Int.tdiv (image.pixel y (x - 1) c + image.pixel y x c) 2
          else image.pixel y (x - 1) c := by
  obtain ⟨res0, hcreate, hr, hcl, hch⟩ := create_ok image.rows (image.cols + 1) image
  obtain ⟨out, hrun, h1, h2, h3, h4⟩ := fill_by res0
    (fun y x c =>
      if (x : Int) < path.getD y 0 then image.pixel y x c
      else if (x : Int) = path.getD y 0 then
        Int.tdiv (image.pixel y (x - 1) c + image.pixel y x c) 2
      else image.pixel y (x - 1) c)
    (fun y x res =>
      (vec_get path y).bind fun py =>
      if x = py ∧ x < image.cols then
        for_up 0 (image.chans : Int)
          (fun c res =>
            (image.at y ((image.chans : Int) * (x - 1) + c)).bind fun a =>
            (image.at y ((image.chans : Int) * x + c)).bind fun b =>
            res.put y ((image.chans : Int) * x + c) (Int.tdiv (a + b) 2))
          res
      else
        let img_x : Int := if x > py then x - 1 else x
        for_up 0 (image.chans : Int)
          (fun c res =>
            (image.at y ((image.chans : Int) * img_x + c)).bind fun v =>
            res.put y ((image.chans : Int) * x + c) v)
          res)
    (by
      intro y x t hy hx
      rw [hr] at hy
      rw [hcl] at hx
      have hpy := hp y hy
      beta_reduce
      rw [vec_get_ok path y (by omega) (by omega), bind_ok, hch]
      simp only [Int.toNat_ofNat]
      by_cases hlt : (x : Int) < path.getD y 0
      · have e1 : ¬ ((x : Int) = path.getD y 0 ∧ (x : Int) < image.cols) := by omega
        have e2 : ¬ ((x : Int) > path.getD y 0) := by omega
        simp only [e1, e2, hlt, if_true, if_false]
        exact copy_channels image y x y x _ _ t rfl rfl hy (by omega)
      · by_cases heq : (x : Int) = path.getD y 0
        · have e1 : (x : Int) = path.getD y 0 ∧ (x : Int) < image.cols := ⟨heq, by omega⟩
          rw [if_pos e1]
          simp only [if_neg hlt, if_pos heq]
          exact average_channels image y x y (x - 1) y x (y : Int) ((x : Int) - 1) (y : Int)
            (x : Int) t rfl (by omega) rfl rfl hy
            (by omega) hy (by omega)
        · have e1 : ¬ ((x : Int) = path.getD y 0 ∧ (x : Int) < image.cols) := by omega
          have e2 : (x : Int) > path.getD y 0 := by omega
          simp only [e1, e2, hlt, heq, if_true, if_false]
          exact copy_channels image y x y (x - 1) (y : Int) ((x : Int) - 1) t rfl (by omega) hy
            (by omega))
  refine ⟨out, ?_, by omega, by omega, by omega, ?_⟩
  · unfold insert_path_vert
    have hcast : (image.cols : Int) + 1 = ((image.cols + 1 : Nat) : Int) := by push_cast; ring
    rw [hcast, hcreate, bind_ok, ← hrun]
  · intro y x c hy hx hcc
    exact h4 y x c (by omega) (by omega) (by omega)

/-- What `insert_path_hori` returns: column `x` of the image with, at row `path[x]`, a new
pixel that averages its two neighbours, the division truncating toward zero. -/
theorem insert_path_hori_ok (image : Mat) (path : List Int)
    (hlen : path.length = image.cols)
    (hp : ∀ x, x < image.cols → 1 ≤ path.getD x 0 ∧ path.getD x 0 ≤ (image.rows : Int) - 1) :
    ∃ out, insert_path_hori image.chans image path = .ok out ∧
      out.rows = image.rows + 1 ∧ out.cols = image.cols ∧ out.chans = image.chans ∧
      ∀ y x c : Nat, y < image.rows + 1 → x < image.cols → c < image.chans →
        out.pixel y x c =
          if (y : Int) < path.getD x 0 then image.pixel y x c
          else if (y : Int) = path.getD x 0 then
            Int.tdiv (image.pixel (y - 1) x c + image.pixel y x c) 2
          else image.pixel (y - 1) x c := by
  obtain ⟨res0, hcreate, hr, hcl, hch⟩ := create_ok (image.rows + 1) image.cols image
  obtain ⟨out, hrun, h1, h2, h3, h4⟩ := fill_by res0
    (fun y x c =>
      if (y : Int) < path.getD x 0 then image.pixel y x c
      else if (y : Int) = path.getD x 0 then
        Int.tdiv (image.pixel (y - 1) x c + image.pixel y x c) 2
      else image.pixel (y - 1) x c)
    (fun y x res =>
      (vec_get path x).bind fun px =>
      if y = px ∧ y < image.rows then
        for_up 0 (image.chans : Int)
          (fun c res =>
            (image.at (y - 1) ((image.chans : Int) * x + c)).bind fun a =>
            (image.at y ((image.chans : Int) * x + c)).bind fun b =>
            res.put y ((image.chans : Int) * x + c) (Int.tdiv (a + b) 2))
          res
      else
        let img_y : Int := if y > px then y - 1 else y
        for_up 0 (image.chans : Int)
          (fun c res =>
            (image.at img_y ((image.chans : Int) * x + c)).bind fun v =>
            res.put y ((image.chans : Int) * x + c) v)
          res)
    (by
      intro y x t hy hx
      rw [hr] at hy
      rw [hcl] at hx
      have hpx := hp x hx
      beta_reduce
      rw [vec_get_ok path x (by omega) (by omega), bind_ok, hch]
      simp only [Int.toNat_ofNat]
      by_cases hlt : (y : Int) < path.getD x 0
      · have e1 : ¬ ((y : Int) = path.getD x 0 ∧ (y : Int) < image.rows) := by omega
        have e2 : ¬ ((y : Int) > path.getD x 0) := by omega
        simp only [e1, e2, hlt, if_true, if_false]
        exact copy_channels image y x y x _ _ t rfl rfl (by omega) hx
      · by_cases heq : (y : Int) = path.getD x 0
        · have e1 : (y : Int) = path.getD x 0 ∧ (y : Int) < image.rows := ⟨heq, by omega⟩
          rw [if_pos e1]
          simp only [if_neg hlt, if_pos heq]
          exact average_channels image y x (y - 1) x y x ((y : Int) - 1) (x : Int) (y : Int)
            (x : Int) t (by omega) rfl rfl rfl
            (by omega) hx (by omega) hx
        · have e1 : ¬ ((y : Int) = path.getD x 0 ∧ (y : Int) < image.rows) := by omega
          have e2 : (y : Int) > path.getD x 0 := by omega
          simp only [e1, e2, hlt, heq, if_true, if_false]
          exact copy_channels image y x (y - 1) x ((y : Int) - 1) (x : Int) t (by omega) rfl
            (by omega) hx)
  refine ⟨out, ?_, by omega, by omega, by omega, ?_⟩
  · unfold insert_path_hori
    have hcast : (image.rows : Int) + 1 = ((image.rows + 1 : Nat) : Int) := by push_cast; ring
    rw [hcast, hcreate, bind_ok, ← hrun]
  · intro y x c hy hx hcc
    exact h4 y x c (by omega) (by omega) (by omega)

/-- What `set_path_vert` leaves: the pixel `(y, path[y])` of every row holds the colour, and
every other pixel is as before. -/
theorem set_path_vert_ok (image : Mat) (path color : List Int)
    (hlen : path.length = image.rows) (hcol : color.length = image.chans)
    (hp : ∀ y, y < image.rows → 0 ≤ path.getD y 0 ∧ path.getD y 0 < image.cols) :
    ∃ out, set_path_vert image.chans image path color = .ok out ∧
      out.rows = image.rows ∧ out.cols = image.cols ∧ out.chans = image.chans ∧
      ∀ y x c : Nat, y < image.rows → x < image.cols → c < image.chans →
        out.pixel y x c =
          if (x : Int) = path.getD y 0 then color.getD c 0 else image.pixel y x c := by
  let Inv : Int → Int → Mat → Prop := fun y c res =>
    res.rows = image.rows ∧ res.cols = image.cols ∧ res.chans = image.chans ∧
    ∀ y' x' c' : Nat, y' < image.rows → x' < image.cols → c' < image.chans →
      res.pixel y' x' c' =
        if ((y' : Int) < y ∨ ((y' : Int) = y ∧ (c' : Int) < c)) ∧ (x' : Int) = path.getD y' 0
        then color.getD c' 0 else image.pixel y' x' c'
  obtain ⟨out, hrun, h1, h2, h3, h4⟩ := for_up_inv
    (fun y image' =>
      for_up 0 (image.chans : Int)
        (fun c image' =>
          (vec_get path y).bind fun py =>
          (vec_get color c).bind fun v =>
          image'.put y ((image.chans : Int) * py + c) v)
        image')
    (fun y res => Inv y 0 res) 0 (image.rows : Int) image (by omega)
    ⟨rfl, rfl, rfl, fun y' x' c' _ _ _ => by
      have : ¬ (((y' : Int) < 0 ∨ ((y' : Int) = 0 ∧ (c' : Int) < 0)) ∧
          (x' : Int) = path.getD y' 0) := by omega
      rw [if_neg this]⟩
    (by
      intro y t hy0 hy hinv
      obtain ⟨yn, rfl⟩ : ∃ n : Nat, y = n := ⟨y.toNat, by omega⟩
      obtain ⟨out, hrun, d1, d2, d3, d4⟩ := for_up_inv
        (fun c image' =>
          (vec_get path (yn : Int)).bind fun py =>
          (vec_get color c).bind fun v =>
          image'.put (yn : Int) ((image.chans : Int) * py + c) v)
        (fun c res => Inv yn c res) 0 (image.chans : Int) t (by omega) hinv
        (by
          intro c u hc0 hc ⟨d1, d2, d3, d4⟩
          obtain ⟨cn, rfl⟩ : ∃ n : Nat, c = n := ⟨c.toNat, by omega⟩
          have hpy := hp yn (by omega)
          obtain ⟨pn, hpn⟩ : ∃ n : Nat, path.getD yn 0 = n := ⟨(path.getD yn 0).toNat, by omega⟩
          beta_reduce
          rw [vec_get_ok path yn (by omega) (by omega), bind_ok,
            vec_get_ok color cn (by omega) (by omega), bind_ok]
          simp only [Int.toNat_ofNat]
          rw [hpn]
          have hput := put_ok u yn pn cn (color.getD cn 0) (by omega) (by omega) (by omega)
          rw [d3] at hput
          rw [hput]
          refine ⟨_, rfl, by simpa using d1, by simpa using d2, by simpa using d3, ?_⟩
          intro y' x' c' hy' hx' hc'
          have hold := d4 y' x' c' hy' hx' hc'
          simp only [Mat.pixel, upd_data, upd_chans, d3] at hold ⊢
          by_cases heq : y' = yn ∧ image.chans * x' + c' = image.chans * pn + cn
          · obtain ⟨e1, e2⟩ := heq
            obtain ⟨e3, e4⟩ := chan_index_inj _ _ _ _ _ hc' (by omega) e2
            subst e1 e3 e4
            have : (((y' : Int) < y' ∨ ((y' : Int) = y' ∧ (c' : Int) < c' + 1)) ∧
                (x' : Int) = path.getD y' 0) := ⟨Or.inr ⟨rfl, by omega⟩, hpn.symm⟩
            rw [if_pos this]; simp
          · rw [if_neg heq, hold]
            by_cases hx : (x' : Int) = path.getD y' 0
            · have hne : ¬ (y' = yn ∧ c' = cn) := by
                rintro ⟨e1, e2⟩
                subst e1 e2
                apply heq
                have : x' = pn := by omega
                subst this
                exact ⟨rfl, rfl⟩
              have e : (((y' : Int) < yn ∨ ((y' : Int) = yn ∧ (c' : Int) < cn)) ∧
                    (x' : Int) = path.getD y' 0) ↔
                  (((y' : Int) < yn ∨ ((y' : Int) = yn ∧ (c' : Int) < (cn : Int) + 1)) ∧
                    (x' : Int) = path.getD y' 0) := by
                constructor
                · rintro ⟨h, hx⟩; exact ⟨by omega, hx⟩
                · rintro ⟨h, hx⟩; exact ⟨by omega, hx⟩
              simp only [e]
            · have e1 : ¬ (((y' : Int) < yn ∨ ((y' : Int) = yn ∧ (c' : Int) < cn)) ∧
                    (x' : Int) = path.getD y' 0) := fun h => hx h.2
              have e2 : ¬ (((y' : Int) < yn ∨ ((y' : Int) = yn ∧ (c' : Int) < (cn : Int) + 1)) ∧
                    (x' : Int) = path.getD y' 0) := fun h => hx h.2
              rw [if_neg e1, if_neg e2])
      refine ⟨out, hrun, d1, d2, d3, ?_⟩
      intro y' x' c' hy' hx' hc'
      rw [d4 y' x' c' hy' hx' hc']
      have e : (((y' : Int) < yn ∨ ((y' : Int) = yn ∧ (c' : Int) < image.chans)) ∧
            (x' : Int) = path.getD y' 0) ↔
          (((y' : Int) < (yn : Int) + 1 ∨ ((y' : Int) = (yn : Int) + 1 ∧ (c' : Int) < 0)) ∧
            (x' : Int) = path.getD y' 0) := by
        constructor
        · rintro ⟨h, hx⟩; exact ⟨by omega, hx⟩
        · rintro ⟨h, hx⟩; exact ⟨by omega, hx⟩
      simp only [e])
  refine ⟨out, hrun, h1, h2, h3, ?_⟩
  intro y x c hy hx hc
  rw [h4 y x c hy hx hc]
  have e : (((y : Int) < image.rows ∨ ((y : Int) = image.rows ∧ (c : Int) < 0)) ∧
        (x : Int) = path.getD y 0) ↔ (x : Int) = path.getD y 0 := by
    constructor
    · rintro ⟨_, hx⟩; exact hx
    · intro hx; exact ⟨by omega, hx⟩
  simp only [e]

/-- What `set_path_hori` leaves: the pixel `(path[x], x)` of every column holds the colour,
and every other pixel is as before. -/
theorem set_path_hori_ok (image : Mat) (path color : List Int)
    (hlen : path.length = image.cols) (hcol : color.length = image.chans)
    (hp : ∀ x, x < image.cols → 0 ≤ path.getD x 0 ∧ path.getD x 0 < image.rows) :
    ∃ out, set_path_hori image.chans image path color = .ok out ∧
      out.rows = image.rows ∧ out.cols = image.cols ∧ out.chans = image.chans ∧
      ∀ y x c : Nat, y < image.rows → x < image.cols → c < image.chans →
        out.pixel y x c =
          if (y : Int) = path.getD x 0 then color.getD c 0 else image.pixel y x c := by
  let Inv : Int → Int → Mat → Prop := fun x c res =>
    res.rows = image.rows ∧ res.cols = image.cols ∧ res.chans = image.chans ∧
    ∀ y' x' c' : Nat, y' < image.rows → x' < image.cols → c' < image.chans →
      res.pixel y' x' c' =
        if ((x' : Int) < x ∨ ((x' : Int) = x ∧ (c' : Int) < c)) ∧ (y' : Int) = path.getD x' 0
        then color.getD c' 0 else image.pixel y' x' c'
  obtain ⟨out, hrun, h1, h2, h3, h4⟩ := for_up_inv
    (fun x image' =>
      for_up 0 (image.chans : Int)
        (fun c image' =>
          (vec_get path x).bind fun px =>
          (vec_get color c).bind fun v =>
          image'.put px ((image.chans : Int) * x + c) v)
        image')
    (fun x res => Inv x 0 res) 0 (image.cols : Int) image (by omega)
    ⟨rfl, rfl, rfl, fun y' x' c' _ _ _ => by
      have : ¬ (((x' : Int) < 0 ∨ ((x' : Int) = 0 ∧ (c' : Int) < 0)) ∧
          (y' : Int) = path.getD x' 0) := by omega
      rw [if_neg this]⟩
    (by
      intro x t hx0 hx hinv
      obtain ⟨xn, rfl⟩ : ∃ n : Nat, x = n := ⟨x.toNat, by omega⟩
      obtain ⟨out, hrun, d1, d2, d3, d4⟩ := for_up_inv
        (fun c image' =>
          (vec_get path (xn : Int)).bind fun px =>
          (vec_get color c).bind fun v =>
          image'.put px ((image.chans : Int) * (xn : Int) + c) v)
        (fun c res => Inv xn c res) 0 (image.chans : Int) t (by omega) hinv
        (by
          intro c u hc0 hc ⟨d1, d2, d3, d4⟩
          obtain ⟨cn, rfl⟩ : ∃ n : Nat, c = n := ⟨c.toNat, by omega⟩
          have hpx := hp xn (by omega)
          obtain ⟨pn, hpn⟩ : ∃ n : Nat, path.getD xn 0 = n := ⟨(path.getD xn 0).toNat, by omega⟩
          beta_reduce
          rw [vec_get_ok path xn (by omega) (by omega), bind_ok,
            vec_get_ok color cn (by omega) (by omega), bind_ok]
          simp only [Int.toNat_ofNat]
          rw [hpn]
          have hput := put_ok u pn xn cn (color.getD cn 0) (by omega) (by omega) (by omega)
          rw [d3] at hput
          rw [hput]
          refine ⟨_, rfl, by simpa using d1, by simpa using d2, by simpa using d3, ?_⟩
          intro y' x' c' hy' hx' hc'
          have hold := d4 y' x' c' hy' hx' hc'
          simp only [Mat.pixel, upd_data, upd_chans, d3] at hold ⊢
          by_cases heq : y' = pn ∧ image.chans * x' + c' = image.chans * xn + cn
          · obtain ⟨e1, e2⟩ := heq
            obtain ⟨e3, e4⟩ := chan_index_inj _ _ _ _ _ hc' (by omega) e2
            subst e1 e3 e4
            have : (((x' : Int) < x' ∨ ((x' : Int) = x' ∧ (c' : Int) < c' + 1)) ∧
                (y' : Int) = path.getD x' 0) := ⟨Or.inr ⟨rfl, by omega⟩, hpn.symm⟩
            rw [if_pos this]; simp
          · rw [if_neg heq, hold]
            by_cases hy : (y' : Int) = path.getD x' 0
            · have hne : ¬ (x' = xn ∧ c' = cn) := by
                rintro ⟨e1, e2⟩
                subst e1 e2
                apply heq
                have : y' = pn := by omega
                subst this
                exact ⟨rfl, rfl⟩
              have e : (((x' : Int) < xn ∨ ((x' : Int) = xn ∧ (c' : Int) < cn)) ∧
                    (y' : Int) = path.getD x' 0) ↔
                  (((x' : Int) < xn ∨ ((x' : Int) = xn ∧ (c' : Int) < (cn : Int) + 1)) ∧
                    (y' : Int) = path.getD x' 0) := by
                constructor
                · rintro ⟨h, hx⟩; exact ⟨by omega, hx⟩
                · rintro ⟨h, hx⟩; exact ⟨by omega, hx⟩
              simp only [e]
            · have e1 : ¬ (((x' : Int) < xn ∨ ((x' : Int) = xn ∧ (c' : Int) < cn)) ∧
                    (y' : Int) = path.getD x' 0) := fun h => hy h.2
              have e2 : ¬ (((x' : Int) < xn ∨ ((x' : Int) = xn ∧ (c' : Int) < (cn : Int) + 1)) ∧
                    (y' : Int) = path.getD x' 0) := fun h => hy h.2
              rw [if_neg e1, if_neg e2])
      refine ⟨out, hrun, d1, d2, d3, ?_⟩
      intro y' x' c' hy' hx' hc'
      rw [d4 y' x' c' hy' hx' hc']
      have e : (((x' : Int) < xn ∨ ((x' : Int) = xn ∧ (c' : Int) < image.chans)) ∧
            (y' : Int) = path.getD x' 0) ↔
          (((x' : Int) < (xn : Int) + 1 ∨ ((x' : Int) = (xn : Int) + 1 ∧ (c' : Int) < 0)) ∧
            (y' : Int) = path.getD x' 0) := by
        constructor
        · rintro ⟨h, hx⟩; exact ⟨by omega, hx⟩
        · rintro ⟨h, hx⟩; exact ⟨by omega, hx⟩
      simp only [e])
  refine ⟨out, hrun, h1, h2, h3, ?_⟩
  intro y x c hy hx hc
  rw [h4 y x c hy hx hc]
  have e : (((x : Int) < image.cols ∨ ((x : Int) = image.cols ∧ (c : Int) < 0)) ∧
        (y : Int) = path.getD x 0) ↔ (y : Int) = path.getD x 0 := by
    constructor
    · rintro ⟨_, hx⟩; exact hx
    · intro hx; exact ⟨by omega, hx⟩
  simp only [e]

/-! ## Seam application: claims -/

/-- C5: for every `R x C` image (`C >= 1`) of any channel count and every path of length `R`
with `0 <= path[y] < C`, `remove_path_vert` returns an `R x (C-1)` image whose pixel `x` of
row `y` is input pixel `x` when `x < path[y]` and input pixel `x + 1` otherwise, in every
channel; and for every path of length `C` with `0 <= path[x] < R`, `remove_path_hori`
returns an `(R-1) x C` image whose pixel `y` of column `x` is input pixel `y` when
`y < path[x]` and input pixel `y + 1` otherwise. -/
theorem remove_path_deletes_seam (image : Mat) (path : List Int) :
    (1 ≤ image.cols → path.length = image.rows →
      (∀ y, y < image.rows → 0 ≤ path.getD y 0 ∧ path.getD y 0 < image.cols) →
      ∃ out, remove_path_vert image.chans image path = .ok out ∧
        out.rows = image.rows ∧ out.cols = image.cols - 1 ∧ out.chans = image.chans ∧
        ∀ y x c : Nat, y < image.rows → x < image.cols - 1 → c < image.chans →
          out.pixel y x c =
            if (x : Int) < path.getD y 0 then image.pixel y x c
            else image.pixel y (x + 1) c) ∧
    (1 ≤ image.rows → path.length = image.cols →
      (∀ x, x < image.cols → 0 ≤ path.getD x 0 ∧ path.getD x 0 < image.rows) →
      ∃ out, remove_path_hori image.chans image path = .ok out ∧
        out.rows = image.rows - 1 ∧ out.cols = image.cols ∧ out.chans = image.chans ∧
        ∀ y x c : Nat, y < image.rows - 1 → x < image.cols → c < image.chans →
          out.pixel y x c =
            if (y : Int) < path.getD x 0 then image.pixel y x c
            else image.pixel (y + 1) x c) :=
  ⟨remove_path_vert_ok image path, remove_path_hori_ok image path⟩

/-- The scenario of C5: removing the seam `[1, 1, 2, 2]` from the 4x4 image of 3 channels
gives a 4x3 image whose row 0 is the input columns 0, 2, 3 in order. -/
theorem remove_path_deletes_seam_witness :
    (∃ out, remove_path_vert 3 color_image [1, 1, 2, 2] = .ok out ∧
      out.rows = 4 ∧ out.cols = 3 ∧ out.chans = 3 ∧
      ∀ c : Nat, c < 3 →
        out.pixel 0 0 c = color_image.pixel 0 0 c ∧ out.pixel 0 1 c = color_image.pixel 0 2 c ∧
        out.pixel 0 2 c = color_image.pixel 0 3 c) ∧
    (∃ out, remove_path_hori 3 color_image [1, 1, 2, 2] = .ok out ∧
      out.rows = 3 ∧ out.cols = 4 ∧ out.chans = 3) := by
  obtain ⟨out, h, h1, h2, h3, h4⟩ :=
    (remove_path_deletes_seam color_image [1, 1, 2, 2]).1 (by decide) (by decide) (by decide)
  obtain ⟨out', h', h1', h2', h3', -⟩ :=
    (remove_path_deletes_seam color_image [1, 1, 2, 2]).2 (by decide) (by decide) (by decide)
  refine ⟨⟨out, h, h1, h2, h3, fun c hc => ⟨?_, ?_, ?_⟩⟩, ⟨out', h', h1', h2', h3'⟩⟩
  · have := h4 0 0 c (by decide) (by decide) hc
    simpa using this
  · have := h4 0 1 c (by decide) (by decide) hc
    simpa using this
  · have := h4 0 2 c (by decide) (by decide) hc
    simpa using this

/-- C7: for every `R x C` image, every path of length `R` with `0 <= path[y] < C` and every
colour with one value per channel, after `set_path_vert` the image has its dimensions, the
pixel `(y, path[y])` of every row holds the colour and every other pixel is as before;
`set_path_hori` does the same with the pixels `(path[x], x)`, for a path of length `C`
with `0 <= path[x] < R`. -/
theorem set_path_marks_only_seam (image : Mat) (path color : List Int) :
    (path.length = image.rows → color.length = image.chans →
      (∀ y, y < image.rows → 0 ≤ path.getD y 0 ∧ path.getD y 0 < image.cols) →
      ∃ out, set_path_vert image.chans image path color = .ok out ∧
        out.rows = image.rows ∧ out.cols = image.cols ∧ out.chans = image.chans ∧
        ∀ y x c : Nat, y < image.rows → x < image.cols → c < image.chans →
          out.pixel y x c =
            if (x : Int) = path.getD y 0 then color.getD c 0 else image.pixel y x c) ∧
    (path.length = image.cols → color.length = image.chans →
      (∀ x, x < image.cols → 0 ≤ path.getD x 0 ∧ path.getD x 0 < image.rows) →
      ∃ out, set_path_hori image.chans image path color = .ok out ∧
        out.rows = image.rows ∧ out.cols = image.cols ∧ out.chans = image.chans ∧
        ∀ y x c : Nat, y < image.rows → x < image.cols → c < image.chans →
          out.pixel y x c =
            if (y : Int) = path.getD x 0 then color.getD c 0 else image.pixel y x c) :=
  ⟨set_path_vert_ok image path color, set_path_hori_ok image path color⟩

theorem set_path_marks_only_seam_witness :
    (∃ out, set_path_vert 3 color_image [1, 1, 2, 2] [7, 8, 9] = .ok out ∧
      out.rows = 4 ∧ out.cols = 4 ∧ out.chans = 3 ∧
      out.pixel 0 1 2 = 9 ∧ out.pixel 0 2 2 = color_image.pixel 0 2 2) ∧
    (∃ out, set_path_hori 3 color_image [1, 1, 2, 2] [7, 8, 9] = .ok out ∧
      out.rows = 4 ∧ out.cols = 4 ∧ out.chans = 3 ∧
      out.pixel 1 0 2 = 9 ∧ out.pixel 2 0 2 = color_image.pixel 2 0 2) := by
  obtain ⟨out, h, h1, h2, h3, h4⟩ :=
    (set_path_marks_only_seam color_image [1, 1, 2, 2] [7, 8, 9]).1 (by decide) (by decide)
      (by decide)
  obtain ⟨out', h', h1', h2', h3', h4'⟩ :=
    (set_path_marks_only_seam color_image [1, 1, 2, 2] [7, 8, 9]).2 (by decide) (by decide)
      (by decide)
  refine ⟨⟨out, h, h1, h2, h3, ?_, ?_⟩, ⟨out', h', h1', h2', h3', ?_, ?_⟩⟩
  · rw [h4 0 1 2 (by decide) (by decide) (by decide)]; decide
  · rw [h4 0 2 2 (by decide) (by decide) (by decide)]; decide
  · rw [h4' 1 0 2 (by decide) (by decide) (by decide)]; decide
  · rw [h4' 2 0 2 (by decide) (by decide) (by decide)]; decide

/-- Removing the seam that `insert_path_vert` inserted gives the image back, pixel for
pixel. -/
theorem insert_remove_vert (image : Mat) (path : List Int) (hlen : path.length = image.rows)
    (hp : ∀ y, y < image.rows → 1 ≤ path.getD y 0 ∧ path.getD y 0 ≤ (image.cols : Int) - 1) :
    ∃ ins out, insert_path_vert image.chans image path = .ok ins ∧
      remove_path_vert image.chans ins path = .ok out ∧
      out.rows = image.rows ∧ out.cols = image.cols ∧ out.chans = image.chans ∧
      ∀ y x c : Nat, y < image.rows → x < image.cols → c < image.chans →
        out.pixel y x c = image.pixel y x c := by
  obtain ⟨ins, h, h1, h2, h3, h4⟩ := insert_path_vert_ok image path hlen hp
  obtain ⟨out, k, k1, k2, k3, k4⟩ := remove_path_vert_ok ins path (by omega) (by omega)
    (fun y hy => by have := hp y (by omega); omega)
  rw [h3] at k
  refine ⟨ins, out, h, k, by omega, by omega, by omega, ?_⟩
  intro y x c hy hx hc
  rw [k4 y x c (by omega) (by omega) (by omega)]
  by_cases hlt : (x : Int) < path.getD y 0
  · rw [if_pos hlt, h4 y x c hy (by omega) hc, if_pos hlt]
  · rw [if_neg hlt, h4 y (x + 1) c hy (by omega) hc, if_neg (by push_cast; omega),
      if_neg (by push_cast; omega)]
    rfl

/-- Removing the seam that `insert_path_hori` inserted gives the image back, pixel for
pixel. -/
theorem insert_remove_hori (image : Mat) (path : List Int) (hlen : path.length = image.cols)
    (hp : ∀ x, x < image.cols → 1 ≤ path.getD x 0 ∧ path.getD x 0 ≤ (image.rows : Int) - 1) :
    ∃ ins out, insert_path_hori image.chans image path = .ok ins ∧
      remove_path_hori image.chans ins path = .ok out ∧
      out.rows = image.rows ∧ out.cols = image.cols ∧ out.chans = image.chans ∧
      ∀ y x c : Nat, y < image.rows → x < image.cols → c < image.chans →
        out.pixel y x c = image.pixel y x c := by
  obtain ⟨ins, h, h1, h2, h3, h4⟩ := insert_path_hori_ok image path hlen hp
  obtain ⟨out, k, k1, k2, k3, k4⟩ := remove_path_hori_ok ins path (by omega) (by omega)
    (fun x hx => by have := hp x (by omega); omega)
  rw [h3] at k
  refine ⟨ins, out, h, k, by omega, by omega, by omega, ?_⟩
  intro y x c hy hx hc
  rw [k4 y x c (by omega) (by omega) (by omega)]
  by_cases hlt : (y : Int) < path.getD x 0
  · rw [if_pos hlt, h4 y x c (by omega) hx hc, if_pos hlt]
  · rw [if_neg hlt, h4 (y + 1) x c (by omega) hx hc, if_neg (by push_cast; omega),
      if_neg (by push_cast; omega)]
    rfl

/-- C8: for every `R x C` image and every path of length `R` with `1 <= path[y] <= C-1`,
`remove_path_vert(insert_path_vert(image, path), path)` has the dimensions `R x C` and
equals the image at every pixel `(y, x)` whose column is none of `path[y] - 1`, `path[y]`,
`path[y] + 1`; the same holds for `remove_path_hori` after `insert_path_hori`, with rows
and columns exchanged. -/
theorem insert_then_remove_restores (image : Mat) (path : List Int) :
    (path.length = image.rows →
      (∀ y, y < image.rows → 1 ≤ path.getD y 0 ∧ path.getD y 0 ≤ (image.cols : Int) - 1) →
      ∃ ins out, insert_path_vert image.chans image path = .ok ins ∧
        remove_path_vert image.chans ins path = .ok out ∧
        out.rows = image.rows ∧ out.cols = image.cols ∧ out.chans = image.chans ∧
        ∀ y x c : Nat, y < image.rows → x < image.cols → c < image.chans →
          (x : Int) ≠ path.getD y 0 - 1 → (x : Int) ≠ path.getD y 0 →
          (x : Int) ≠ path.getD y 0 + 1 → out.pixel y x c = image.pixel y x c) ∧
    (path.length = image.cols →
      (∀ x, x < image.cols → 1 ≤ path.getD x 0 ∧ path.getD x 0 ≤ (image.rows : Int) - 1) →
      ∃ ins out, insert_path_hori image.chans image path = .ok ins ∧
        remove_path_hori image.chans ins path = .ok out ∧
        out.rows = image.rows ∧ out.cols = image.cols ∧ out.chans = image.chans ∧
        ∀ y x c : Nat, y < image.rows → x < image.cols → c < image.chans →
          (y : Int) ≠ path.getD x 0 - 1 → (y : Int) ≠ path.getD x 0 →
          (y : Int) ≠ path.getD x 0 + 1 → out.pixel y x c = image.pixel y x c) := by
  constructor
  · intro hlen hp
    obtain ⟨ins, out, h, k, k1, k2, k3, k4⟩ := insert_remove_vert image path hlen hp
    exact ⟨ins, out, h, k, k1, k2, k3, fun y x c hy hx hc _ _ _ => k4 y x c hy hx hc⟩
  · intro hlen hp
    obtain ⟨ins, out, h, k, k1, k2, k3, k4⟩ := insert_remove_hori image path hlen hp
    exact ⟨ins, out, h, k, k1, k2, k3, fun y x c hy hx hc _ _ _ => k4 y x c hy hx hc⟩

theorem insert_then_remove_restores_witness :
    (∃ ins out, insert_path_vert 3 color_image [1, 1, 2, 3] = .ok ins ∧
      remove_path_vert 3 ins [1, 1, 2, 3] = .ok out ∧
      out.rows = 4 ∧ out.cols = 4 ∧ out.chans = 3 ∧
      out.pixel 0 3 1 = color_image.pixel 0 3 1) ∧
    (∃ ins out, insert_path_hori 3 color_image [1, 1, 2, 3] = .ok ins ∧
      remove_path_hori 3 ins [1, 1, 2, 3] = .ok out ∧
      out.rows = 4 ∧ out.cols = 4 ∧ out.chans = 3 ∧
      out.pixel 3 0 1 = color_image.pixel 3 0 1) := by
  obtain ⟨ins, out, h, k, k1, k2, k3, k4⟩ :=
    (insert_then_remove_restores color_image [1, 1, 2, 3]).1 (by decide) (by decide)
  obtain ⟨ins', out', h', k', k1', k2', k3', k4'⟩ :=
    (insert_then_remove_restores color_image [1, 1, 2, 3]).2 (by decide) (by decide)
  exact ⟨⟨ins, out, h, k, k1, k2, k3,
      k4 0 3 1 (by decide) (by decide) (by decide) (by decide) (by decide) (by decide)⟩,
    ⟨ins', out', h', k', k1', k2', k3',
      k4' 3 0 1 (by decide) (by decide) (by decide) (by decide) (by decide) (by decide)⟩⟩

/-! ## Maps that are too small -/

/-- A loop whose body always returns, returns. -/
theorem for_up_total {σ : Type} (body : Int → σ → Except Fault σ) (lo hi : Int) (s : σ)
    (h : ∀ j t, ∃ t', body j t = .ok t') : ∃ s', for_up lo hi body s = .ok s' := by
  by_cases hle : lo ≤ hi
  · obtain ⟨s', h1, -⟩ := for_up_inv body (fun _ _ => True) lo hi s hle trivial
      (fun j t _ _ _ => by obtain ⟨t', ht⟩ := h j t; exact ⟨t', ht, trivial⟩)
    exact ⟨s', h1⟩
  · exact ⟨s, for_up_empty body lo hi s (by omega)⟩

/-- With fewer than 3 columns no cell of a level is eligible, and the main loop of
`find_vert_seam` only moves the two level pointers. -/
theorem vert_fill_small (add : Int → Int → Int) (cmp : Int → Int → Bool) (E : Mat)
    (dp : dp_table) (hc : E.cols < 3) :
    ∃ st, for_up 1 (E.rows : Int)
        (fun y st =>
          (for_up 1 ((E.cols : Int) - 1)
            (fun x st => relax add cmp E.cols (E.at y x) x st) st).bind fun st =>
          .ok { st with last_level := st.last_level + (E.cols : Int),
                        current_level := st.current_level + (E.cols : Int) })
        ⟨dp, 0, E.cols⟩ = .ok st ∧
      st.dp = dp ∧ st.current_level = (max 1 (E.rows : Int)) * E.cols := by
  have e : ∀ (body : Int → levels → Except Fault levels) (s : levels),
      for_up 1 ((E.cols : Int) - 1) body s = .ok s :=
    fun body s => for_up_empty body _ _ s (by omega)
  simp only [e, bind_ok]
  by_cases hr : 1 ≤ E.rows
  · have hm : max 1 (E.rows : Int) = E.rows := by omega
    rw [hm]
    obtain ⟨st, h1, h2, h3⟩ := for_up_inv
      (fun (y : Int) (st : levels) => (Except.ok { st with
          last_level := st.last_level + (E.cols : Int),
          current_level := st.current_level + (E.cols : Int) } : Except Fault levels))
      (fun y st => st.dp = dp ∧ st.current_level = y * E.cols) 1 (E.rows : Int)
      ⟨dp, 0, E.cols⟩ (by omega) ⟨rfl, by simp⟩
      (fun y st _ _ ⟨i1, i2⟩ => ⟨_, rfl, i1, by simp only [i2]; ring⟩)
    exact ⟨st, h1, h2, h3⟩
  · have hm : max 1 (E.rows : Int) = 1 := by omega
    rw [hm, for_up_empty _ _ _ _ (by omega)]
    exact ⟨_, rfl, rfl, by simp⟩

/-- On a map with fewer than 3 columns `find_vert_seam`, run on a table none of whose cells
is written, leaves defined behaviour instead of rejecting the map. -/
theorem vert_on_small (add : Int → Int → Int) (cmp : Int → Int → Bool) (E : Mat)
    (n : Nat) (owned : Bool) :
    (E.cols = 2 → (max 1 E.rows + 1) * 2 ≤ n →
      find_vert_seam_on add E (dp_table.fresh n) owned cmp = .error .dp_uninitialised) ∧
    (E.cols = 2 → n < (max 1 E.rows + 1) * 2 →
      find_vert_seam_on add E (dp_table.fresh n) owned cmp = .error .dp_out_of_bounds) ∧
    (E.cols < 2 →
      find_vert_seam_on add E (dp_table.fresh n) owned cmp = .error .invalid_range) := by
  have e : E.cols < 3 → ∀ (σ : Type) (body : Int → σ → Except Fault σ) (s : σ),
      for_up 1 ((E.cols : Int) - 1) body s = .ok s :=
    fun h σ body s => for_up_empty body _ _ s (by omega)
  refine ⟨fun hc hn => ?_, fun hc hn => ?_, fun hc => ?_⟩
  · obtain ⟨st, h1, h2, h3⟩ := vert_fill_small add cmp E (dp_table.fresh n) (by omega)
    unfold find_vert_seam_on
    simp only [e (by omega) dp_table, bind_ok, h1, h2, h3]
    have hm : (max 1 (E.rows : Int)) * (E.cols : Int) + ((E.cols : Int) - 1) =
        (max 1 (E.rows : Int)) * (E.cols : Int) + 1 := by rw [hc]; rfl
    have hb : (max 1 (E.rows : Int)) * (E.cols : Int) + 1 < n := by
      rw [hc]
      have : (((max 1 E.rows + 1) * 2 : Nat) : Int) ≤ n := by exact_mod_cast hn
      push_cast at this
      omega
    have h0 : 0 ≤ (max 1 (E.rows : Int)) * (E.cols : Int) + 1 := by positivity
    simp [min_element, hm, dp_table.read, dp_table.fresh, dp_table.peek, hb, h0]
  · obtain ⟨st, h1, h2, h3⟩ := vert_fill_small add cmp E (dp_table.fresh n) (by omega)
    unfold find_vert_seam_on
    simp only [e (by omega) dp_table, bind_ok, h1, h2, h3]
    have hm : (max 1 (E.rows : Int)) * (E.cols : Int) + ((E.cols : Int) - 1) =
        (max 1 (E.rows : Int)) * (E.cols : Int) + 1 := by rw [hc]; rfl
    have hb : ¬ (max 1 (E.rows : Int)) * (E.cols : Int) + 1 < n := by
      rw [hc]
      have : (n : Int) < (((max 1 E.rows + 1) * 2 : Nat) : Int) := by exact_mod_cast hn
      push_cast at this
      omega
    simp [min_element, hm, dp_table.read, dp_table.fresh, hb]
  · obtain ⟨st, h1, h2, h3⟩ := vert_fill_small add cmp E (dp_table.fresh n) (by omega)
    unfold find_vert_seam_on
    simp only [e (by omega) dp_table, bind_ok, h1, h2, h3]
    have hlt : (max 1 (E.rows : Int)) * (E.cols : Int) + ((E.cols : Int) - 1) <
        (max 1 (E.rows : Int)) * (E.cols : Int) + 1 := by omega
    simp [min_element, hlt]

/-- C9 fails as stated: on a map of 2 rows `find_hori_seam` does not reject the input. Run
on a table of its own it reads a cell of the table that was never written, and run on a
caller's buffer with stale cells it returns a path taken from them; `find_vert_seam` does
the same on a map of 2 columns. -/
theorem two_row_map_is_not_rejected :
    find_hori_seam exact_add two_row_map none less = .error .dp_uninitialised ∧
    find_hori_seam exact_add two_row_map (some stale_buffer) less = .ok ⟨[3], 7⟩ ∧
    find_vert_seam exact_add two_col_map none less = .error .dp_uninitialised ∧
    find_vert_seam exact_add two_col_map (some stale_buffer) less = .ok ⟨[3], 7⟩ := by
  decide

/-- C9, amended: `find_hori_seam` has no size check. On every energy map with fewer than 3
rows, called without a scratch buffer, it returns neither an error of its own nor a path:
the run leaves defined behaviour. With exactly 2 rows it reads, after the loops, cell 1 of
the bookkeeping level, which the call never wrote (on a map without columns that cell lies
past the table); with fewer than 2 rows it calls `std::min_element` on a range whose first
position is past its last. The same holds of `find_vert_seam` on every map with fewer than
3 columns. -/
theorem small_maps_are_not_rejected (add : Int → Int → Int) (cmp : Int → Int → Bool)
    (E : Mat) :
    (E.rows = 2 → 1 ≤ E.cols → find_hori_seam add E none cmp = .error .dp_uninitialised) ∧
    (E.rows = 2 → E.cols = 0 → find_hori_seam add E none cmp = .error .dp_out_of_bounds) ∧
    (E.rows < 2 → find_hori_seam add E none cmp = .error .invalid_range) ∧
    (E.cols = 2 → 1 ≤ E.rows → find_vert_seam add E none cmp = .error .dp_uninitialised) ∧
    (E.cols = 2 → E.rows = 0 → find_vert_seam add E none cmp = .error .dp_out_of_bounds) ∧
    (E.cols < 2 → find_vert_seam add E none cmp = .error .invalid_range) := by
  have hv : ∀ f, find_vert_seam_on add E (dp_table.fresh ((E.rows + 1) * E.cols)) true cmp =
      .error f → find_vert_seam add E none cmp = .error f := by
    intro f h
    simp [find_vert_seam, find_vert_seam_run, h, Except.map]
  have hh : ∀ f, find_vert_seam_on add E.transpose
      (dp_table.fresh ((E.cols + 1) * E.rows)) true cmp = .error f →
      find_hori_seam add E none cmp = .error f := by
    intro f h
    simp [find_hori_seam, find_hori_seam_run, hori_on_eq_vert_on, h, Except.map]
  have tc : E.transpose.cols = E.rows := rfl
  have tr : E.transpose.rows = E.cols := rfl
  refine ⟨fun h2 h1 => hh _ ?_, fun h2 h0 => hh _ ?_, fun h2 => hh _ ?_,
    fun h2 h1 => hv _ ?_, fun h2 h0 => hv _ ?_, fun h2 => hv _ ?_⟩
  · exact (vert_on_small add cmp E.transpose _ true).1 (by rw [tc]; exact h2)
      (by rw [tr, h2, max_eq_right h1])
  · exact (vert_on_small add cmp E.transpose _ true).2.1 (by rw [tc]; exact h2)
      (by rw [tr, h2, h0]; decide)
  · exact (vert_on_small add cmp E.transpose _ true).2.2 (by rw [tc]; exact h2)
  · exact (vert_on_small add cmp E _ true).1 h2 (by rw [h2, max_eq_right h1])
  · exact (vert_on_small add cmp E _ true).2.1 h2 (by rw [h2, h0]; decide)
  · exact (vert_on_small add cmp E _ true).2.2 h2

theorem small_maps_are_not_rejected_witness :
    find_hori_seam exact_add two_row_map none less = .error .dp_uninitialised ∧
    find_hori_seam exact_add (Mat.ofRows 2 0 []) none less = .error .dp_out_of_bounds ∧
    find_hori_seam exact_add (Mat.ofRows 1 1 [[0]]) none less = .error .invalid_range ∧
    find_vert_seam exact_add two_col_map none less = .error .dp_uninitialised ∧
    find_vert_seam exact_add (Mat.ofRows 0 2 []) none less = .error .dp_out_of_bounds ∧
    find_vert_seam exact_add (Mat.ofRows 1 1 [[0]]) none less = .error .invalid_range :=
  ⟨(small_maps_are_not_rejected exact_add less two_row_map).1 (by decide) (by decide),
   (small_maps_are_not_rejected exact_add less (Mat.ofRows 2 0 [])).2.1 (by decide)
      (by decide),
   (small_maps_are_not_rejected exact_add less (Mat.ofRows 1 1 [[0]])).2.2.1 (by decide),
   (small_maps_are_not_rejected exact_add less two_col_map).2.2.2.1 (by decide) (by decide),
   (small_maps_are_not_rejected exact_add less (Mat.ofRows 0 2 [])).2.2.2.2.1 (by decide)
      (by decide),
   (small_maps_are_not_rejected exact_add less (Mat.ofRows 1 1 [[0]])).2.2.2.2.2 (by decide)⟩

/-- C10 at its failing input: with the comparator `greater` on the map of 1 row whose two
eligible cells hold 1 and 5, `find_vert_seam` returns the seam through the cell of energy 1,
with total 1, although the valid seam `[2]` has energy 5: the last scan takes the least
weight of the last level whatever the comparator. `find_hori_seam` does the same on the
transposed map. -/
theorem greater_comparator_returns_least_cell :
    find_vert_seam exact_add one_row_map none greater = .ok ⟨[1], 1⟩ ∧
    valid_seam 1 4 [2] ∧ vert_seam_energy one_row_map [2] = 5 ∧
    ¬ is_greatest_energy 1 4 (vert_seam_energy one_row_map) 1 ∧
    find_hori_seam exact_add one_col_map none greater = .ok ⟨[1], 1⟩ ∧
    hori_seam_energy one_col_map [2] = 5 ∧
    ¬ is_greatest_energy 1 4 (hori_seam_energy one_col_map) 1 := by
  refine ⟨by decide, by decide, by decide, ?_, by decide, by decide, ?_⟩
  · rintro ⟨-, h⟩
    have := h [2] (by decide)
    revert this
    decide
  · rintro ⟨-, h⟩
    have := h [2] (by decide)
    revert this
    decide

/-! ## What a run that returns has done -/

/-- A read of the table that returns was inside the table and hit a written cell. -/
theorem read_in_bounds (t : dp_table) (i : Int) (c : weighted_int_t) (h : t.read i = .ok c) :
    0 ≤ i ∧ i < t.size ∧ t.peek i = some c := by
  unfold dp_table.read at h
  by_cases hb : 0 ≤ i ∧ i < t.size
  · rw [if_pos hb] at h
    refine ⟨hb.1, hb.2, ?_⟩
    cases hp : t.peek i with
    | none => rw [hp] at h; cases h
    | some d => rw [hp] at h; cases h; rfl
  · rw [if_neg hb] at h; cases h

/-- A write to the table that returns was inside the table. -/
theorem write_in_bounds (t t' : dp_table) (i : Int) (c : weighted_int_t)
    (h : t.write i c = .ok t') : 0 ≤ i ∧ i < t.size := by
  unfold dp_table.write at h
  by_cases hb : 0 ≤ i ∧ i < t.size
  · exact hb
  · rw [if_neg hb] at h; cases h

/-- A read of a matrix that returns was inside the matrix. -/
theorem at_in_bounds (m : Mat) (y j v : Int) (h : m.at y j = .ok v) :
    0 ≤ y ∧ y < m.rows ∧ 0 ≤ j ∧ j < (m.cols : Int) * m.chans := by
  unfold Mat.at at h
  by_cases hb : 0 ≤ y ∧ y < m.rows ∧ 0 ≤ j ∧ j < (m.cols : Int) * m.chans
  · exact hb
  · rw [if_neg hb] at h; cases h

/-! ## The table a run leaves, and the uniqueness of its result -/

/-- A run of `find_vert_seam` returns the seam of the recurrence and leaves a table whose
levels hold the cells of the recurrence. -/
theorem vert_on_full (add : Int → Int → Int) (cmp : Int → Int → Bool) (E : Mat)
    (dp0 : dp_table) (owned : Bool) (h1 : 1 ≤ E.rows) (h3 : 3 ≤ E.cols)
    (hsize0 : (E.rows + 1) * E.cols ≤ dp0.size) :
    ∃ r pl, find_vert_seam_on add E dp0 owned cmp = .ok r ∧
      follows_recurrence add cmp E.rows E.cols (vert_energy E) owned r pl ∧
      r.table.size = dp0.size ∧
      ∀ k : Nat, k < E.rows → ∀ p, 1 ≤ p → p < (E.cols : Int) - 1 →
        r.table.peek ((k : Int) * E.cols + p) =
          some (level_cell add cmp E.cols (vert_energy E) k p) := by
  have hsz : ((E.rows : Int) + 1) * E.cols ≤ dp0.size := by exact_mod_cast hsize0
  have hcols : (E.cols : Int) ≤ dp0.size := by
    have := addr_lt_size 0 E.rows (E.cols : Int) ((E.cols : Int) - 1) (by omega) (by omega)
      (by omega)
    omega
  obtain ⟨dp1, r1, s1, c1⟩ := vert_init_ok E dp0 h1 (by omega) hcols
  obtain ⟨st, r2, s2, l2, cu2, c2⟩ := vert_fill_ok add cmp E dp1 h1 h3 (by rw [s1]; exact hsize0) c1
  obtain ⟨dp3, r3, s3, c3, n3⟩ := vert_last_ok E st
    (level_cell add cmp E.cols (vert_energy E)) h1 h3 (by omega) l2 cu2 c2
  have b1 := addr_nonneg E.rows (E.cols : Int) 1 (by omega) (by omega)
  have b2 := addr_lt_size E.rows E.rows (E.cols : Int) ((E.cols : Int) - 1) (le_refl _)
    (by omega) (by omega)
  obtain ⟨e_min, r4, m1, m2, m3, m4⟩ := min_element_ok dp3
    ((E.rows : Int) * E.cols + 1) ((E.rows : Int) * E.cols + ((E.cols : Int) - 1))
    (fun i => ⟨(level_cell add cmp E.cols (vert_energy E) (E.rows - 1)
      (i - (E.rows : Int) * E.cols)).weight, i - (E.rows : Int) * E.cols⟩)
    (by omega) (by omega) (by omega)
    (fun i hi1 hi2 => by
      have := n3 (i - (E.rows : Int) * E.cols) (by omega) (by omega)
      rw [← this]; congr 1; ring)
  have r5 : dp3.read e_min = .ok ⟨(level_cell add cmp E.cols (vert_energy E) (E.rows - 1)
      (e_min - (E.rows : Int) * E.cols)).weight, e_min - (E.rows : Int) * E.cols⟩ := by
    apply read_ok _ _ _ (by omega) (by omega)
    have := n3 (e_min - (E.rows : Int) * E.cols) (by omega) (by omega)
    rw [← this]; congr 1; ring
  have r6 : vec_set (List.replicate E.rows 0) ((E.rows : Int) - 1)
      (e_min - (E.rows : Int) * E.cols) =
      .ok ((List.replicate E.rows 0).set (E.rows - 1) (e_min - (E.rows : Int) * E.cols)) := by
    rw [vec_set_ok _ _ _ (by omega) (by simp)]
    congr 2; omega
  obtain ⟨tr, r7, t1, t2, t3, t4⟩ := vert_back_ok E dp3
    (level_cell add cmp E.cols (vert_energy E))
    ((List.replicate E.rows 0).set (E.rows - 1) (e_min - (E.rows : Int) * E.cols))
    (e_min - (E.rows : Int) * E.cols) h1 h3 (by omega) c3
    (fun k hk p hp1 hp2 =>
      ⟨(level_cell_value add cmp E.cols (vert_energy E) k p hk hp1 hp2).1,
       (level_cell_value add cmp E.cols (vert_energy E) k p hk hp1 hp2).2.1⟩)
    (by simp) (getD_set_same _ _ _ _ (by simp; omega)) (by omega) (by omega)
  refine ⟨⟨⟨tr.path, (level_cell add cmp E.cols (vert_energy E) (E.rows - 1)
      (e_min - (E.rows : Int) * E.cols)).weight⟩, dp3, owned⟩,
    e_min - (E.rows : Int) * E.cols, ?_, ⟨rfl, t1, by omega, by omega, ?_, ?_, rfl, t2,
    fun l hl => t3 l (by omega) hl, fun l hl => t4 l (by omega) hl⟩, by
      show dp3.size = dp0.size
      omega, fun k hk p hp1 hp2 => c3 k (by omega) p hp1 hp2⟩
  · unfold find_vert_seam_on
    simp only [r1, bind_ok, r2, r3]
    simp only [cu2, l2, r4, bind_ok, r5, r6, r7]
  · intro p hp1 hp2
    have := m3 ((E.rows : Int) * E.cols + p) (by omega) (by omega)
    simpa using this
  · intro p hp1 hp2
    have := m4 ((E.rows : Int) * E.cols + p) (by omega) (by omega)
    simpa using this

/-- A run of `find_hori_seam` returns the seam of the recurrence and leaves a table whose
levels hold the cells of the recurrence. -/
theorem hori_on_full (add : Int → Int → Int) (cmp : Int → Int → Bool) (E : Mat)
    (dp0 : dp_table) (owned : Bool) (h3 : 3 ≤ E.rows) (h1 : 1 ≤ E.cols)
    (hsize0 : (E.cols + 1) * E.rows ≤ dp0.size) :
    ∃ r pl, find_hori_seam_on add E dp0 owned cmp = .ok r ∧
      follows_recurrence add cmp E.cols E.rows (hori_energy E) owned r pl ∧
      r.table.size = dp0.size ∧
      ∀ k : Nat, k < E.cols → ∀ p, 1 ≤ p → p < (E.rows : Int) - 1 →
        r.table.peek ((k : Int) * E.rows + p) =
          some (level_cell add cmp E.rows (hori_energy E) k p) := by
  rw [hori_on_eq_vert_on]
  exact vert_on_full add cmp E.transpose dp0 owned h1 h3 hsize0

theorem path_result_eq (a b : path_result) (h1 : a.path = b.path)
    (h2 : a.total_energy = b.total_energy) : a = b := by
  cases a; cases b; simp_all

/-- The recurrence determines the result of a run: two runs that follow it return the
same path and the same total. -/
theorem follows_recurrence_unique (add : Int → Int → Int) (cmp : Int → Int → Bool)
    (n m : Nat) (en : Nat → Int → Int) (o1 o2 : Bool) (r1 r2 : seam_run) (p1 p2 : Int)
    (h1 : follows_recurrence add cmp n m en o1 r1 p1)
    (h2 : follows_recurrence add cmp n m en o2 r2 p2) : r1.result = r2.result := by
  obtain ⟨-, a2, a3, a4, a5, a6, a7, a8, a9, a10⟩ := h1
  obtain ⟨-, b2, b3, b4, b5, b6, b7, b8, b9, b10⟩ := h2
  have hp : p1 = p2 := by
    by_contra hne
    rcases lt_or_gt_of_ne hne with h | h
    · have := b6 p1 a3 h
      have := a5 p2 b3 b4
      omega
    · have := a6 p2 b3 h
      have := b5 p1 a3 a4
      omega
  subst hp
  apply path_result_eq
  · have key : ∀ d, d < n →
        r1.result.path.getD (n - 1 - d) 0 = r2.result.path.getD (n - 1 - d) 0 := by
      intro d
      induction d with
      | zero => intro _; rw [Nat.sub_zero, a8, b8]
      | succ d ih =>
        intro hd
        have e : n - 1 - (d + 1) + 1 = n - 1 - d := by omega
        rw [a10 (n - 1 - (d + 1)) (by omega), b10 (n - 1 - (d + 1)) (by omega), e,
          ih (by omega)]
    apply List.ext_getElem (by omega)
    intro i hi1 hi2
    have := key (n - 1 - i) (by omega)
    have e : n - 1 - (n - 1 - i) = i := by omega
    rw [e, List.getD_eq_getElem _ _ hi1, List.getD_eq_getElem _ _ hi2] at this
    exact this
  · rw [a7, b7]

/-! ## The scratch buffer: claims -/

/-- C11 fails as stated: on the map of 3 rows and 1 column a scratch buffer of
`(rows + 1) * cols = 4` cells is too small for `find_hori_seam`, whose bookkeeping level
starts at cell `cols * rows = 3` and is written at cell 4; likewise a buffer of
`(cols + 1) * rows = 4` cells for `find_vert_seam` on the map of 1 row and 3 columns. -/
theorem stated_capacity_is_overrun :
    four_cell_buffer.size = (three_row_map.rows + 1) * three_row_map.cols ∧
    find_hori_seam exact_add three_row_map (some four_cell_buffer) less =
      .error .dp_out_of_bounds ∧
    four_cell_buffer.size = (three_col_map.cols + 1) * three_col_map.rows ∧
    find_vert_seam exact_add three_col_map (some four_cell_buffer) less =
      .error .dp_out_of_bounds := by
  decide

/-- C11, amended: on every accepted energy map, when the caller supplies a scratch buffer of
exactly `(levels + 1) * coordinates` cells, that is `(cols + 1) * rows` cells for
`find_hori_seam` and `(rows + 1) * cols` cells for `find_vert_seam`, the search runs to its
return statement: every read and write of the table has its index inside the buffer (a run
returns only then), and the table it leaves is the buffer, of the same extent. -/
theorem scratch_capacity_suffices (add : Int → Int → Int) (cmp : Int → Int → Bool)
    (E : Mat) (b : dp_table) :
    (3 ≤ E.rows → 1 ≤ E.cols → b.size = (E.cols + 1) * E.rows →
      ∃ r, find_hori_seam_run add E (some b) cmp = .ok r ∧ r.table.size = b.size) ∧
    (1 ≤ E.rows → 3 ≤ E.cols → b.size = (E.rows + 1) * E.cols →
      ∃ r, find_vert_seam_run add E (some b) cmp = .ok r ∧ r.table.size = b.size) := by
  constructor
  · intro h3 h1 hb
    obtain ⟨r, pl, hr, -, hs, -⟩ := hori_on_full add cmp E b false h3 h1 (by omega)
    exact ⟨r, hr, hs⟩
  · intro h1 h3 hb
    obtain ⟨r, pl, hr, -, hs, -⟩ := vert_on_full add cmp E b false h1 h3 (by omega)
    exact ⟨r, hr, hs⟩

theorem scratch_capacity_suffices_witness :
    (∃ r, find_hori_seam_run exact_add scenario_map (some stale_buffer_30) less = .ok r ∧
      r.table.size = stale_buffer_30.size) ∧
    (∃ r, find_vert_seam_run exact_add scenario_map (some stale_buffer_30) less = .ok r ∧
      r.table.size = stale_buffer_30.size) :=
  ⟨(scratch_capacity_suffices exact_add less scenario_map stale_buffer_30).1 (by decide)
      (by decide) (by decide),
   (scratch_capacity_suffices exact_add less scenario_map stale_buffer_30).2 (by decide)
      (by decide) (by decide)⟩

/-- C12, the part that holds and the one that does not: on every accepted energy map, two
calls with scratch buffers of sufficient capacity and any contents, written or not, return
the same path and the same total, read from the caller's live buffer (`released` is false).
The call without a scratch buffer computes the same table, but takes the `total_energy` it
returns from that table after `delete [] dp` has released it (`released` is true): its
result is the one of the other calls only as long as the released cell keeps its
contents. -/
theorem unbuffered_total_is_read_after_delete (add : Int → Int → Int)
    (cmp : Int → Int → Bool) (E : Mat) (b1 b2 : dp_table) :
    (3 ≤ E.rows → 1 ≤ E.cols → (E.cols + 1) * E.rows ≤ b1.size →
      (E.cols + 1) * E.rows ≤ b2.size →
      ∃ r1 r2 r0, find_hori_seam_run add E (some b1) cmp = .ok r1 ∧
        find_hori_seam_run add E (some b2) cmp = .ok r2 ∧
        find_hori_seam_run add E none cmp = .ok r0 ∧
        r1.result = r2.result ∧ r1.released = false ∧ r2.released = false ∧
        r0.released = true ∧ r0.result = r1.result) ∧
    (1 ≤ E.rows → 3 ≤ E.cols → (E.rows + 1) * E.cols ≤ b1.size →
      (E.rows + 1) * E.cols ≤ b2.size →
      ∃ r1 r2 r0, find_vert_seam_run add E (some b1) cmp = .ok r1 ∧
        find_vert_seam_run add E (some b2) cmp = .ok r2 ∧
        find_vert_seam_run add E none cmp = .ok r0 ∧
        r1.result = r2.result ∧ r1.released = false ∧ r2.released = false ∧
        r0.released = true ∧ r0.result = r1.result) := by
  constructor
  · intro h3 h1 hb1 hb2
    obtain ⟨r1, p1, e1, f1⟩ := hori_run_spec add cmp E (some b1) h3 h1 hb1
    obtain ⟨r2, p2, e2, f2⟩ := hori_run_spec add cmp E (some b2) h3 h1 hb2
    obtain ⟨r0, p0, e0, f0⟩ := hori_run_spec add cmp E none h3 h1 trivial
    exact ⟨r1, r2, r0, e1, e2, e0, follows_recurrence_unique _ _ _ _ _ _ _ _ _ _ _ f1 f2,
      f1.1, f2.1, f0.1, follows_recurrence_unique _ _ _ _ _ _ _ _ _ _ _ f0 f1⟩
  · intro h1 h3 hb1 hb2
    obtain ⟨r1, p1, e1, f1⟩ := vert_run_spec add cmp E (some b1) h1 h3 hb1
    obtain ⟨r2, p2, e2, f2⟩ := vert_run_spec add cmp E (some b2) h1 h3 hb2
    obtain ⟨r0, p0, e0, f0⟩ := vert_run_spec add cmp E none h1 h3 trivial
    exact ⟨r1, r2, r0, e1, e2, e0, follows_recurrence_unique _ _ _ _ _ _ _ _ _ _ _ f1 f2,
      f1.1, f2.1, f0.1, follows_recurrence_unique _ _ _ _ _ _ _ _ _ _ _ f0 f1⟩

/-- The witness of C12: the 5x5 scenario map with a buffer of 30 stale cells and a buffer
of 30 cells never written. -/
theorem unbuffered_total_is_read_after_delete_witness :
    (∃ r1 r2 r0,
        find_hori_seam_run exact_add scenario_map (some stale_buffer_30) less = .ok r1 ∧
        find_hori_seam_run exact_add scenario_map (some (dp_table.fresh 30)) less = .ok r2 ∧
        find_hori_seam_run exact_add scenario_map none less = .ok r0 ∧
        r1.result = r2.result ∧ r1.released = false ∧ r2.released = false ∧
        r0.released = true ∧ r0.result = r1.result) ∧
    (∃ r1 r2 r0,
        find_vert_seam_run exact_add scenario_map (some stale_buffer_30) less = .ok r1 ∧
        find_vert_seam_run exact_add scenario_map (some (dp_table.fresh 30)) less = .ok r2 ∧
        find_vert_seam_run exact_add scenario_map none less = .ok r0 ∧
        r1.result = r2.result ∧ r1.released = false ∧ r2.released = false ∧
        r0.released = true ∧ r0.result = r1.result) :=
  ⟨(unbuffered_total_is_read_after_delete exact_add less scenario_map stale_buffer_30
      (dp_table.fresh 30)).1 (by decide) (by decide) (by decide) (by decide),
   (unbuffered_total_is_read_after_delete exact_add less scenario_map stale_buffer_30
      (dp_table.fresh 30)).2 (by decide) (by decide) (by decide) (by decide)⟩

/-! ## Execution in bounds, the scenario, the mirror, the precondition: claims -/

/-- C19: for every `R x C` image and every path of length `R` with `1 <= path[y] <= C-1`,
`remove_path_vert(insert_path_vert(image, path), path)` has the dimensions `R x C` and
equals the image at every pixel and channel, the pixels next to the seam included: the
pixel removed is the averaged one; the same holds for `remove_path_hori` after
`insert_path_hori` for a path of length `C` with `1 <= path[x] <= R-1`. -/
theorem insert_then_remove_is_identity (image : Mat) (path : List Int) :
    (path.length = image.rows →
      (∀ y, y < image.rows → 1 ≤ path.getD y 0 ∧ path.getD y 0 ≤ (image.cols : Int) - 1) →
      ∃ ins out, insert_path_vert image.chans image path = .ok ins ∧
        remove_path_vert image.chans ins path = .ok out ∧
        out.rows = image.rows ∧ out.cols = image.cols ∧ out.chans = image.chans ∧
        (∀ y c : Nat, y < image.rows → c < image.chans →
          ins.pixel y (path.getD y 0).toNat c =
            Int.tdiv (image.pixel y ((path.getD y 0).toNat - 1) c +
              image.pixel y (path.getD y 0).toNat c) 2) ∧
        ∀ y x c : Nat, y < image.rows → x < image.cols → c < image.chans →
          out.pixel y x c = image.pixel y x c) ∧
    (path.length = image.cols →
      (∀ x, x < image.cols → 1 ≤ path.getD x 0 ∧ path.getD x 0 ≤ (image.rows : Int) - 1) →
      ∃ ins out, insert_path_hori image.chans image path = .ok ins ∧
        remove_path_hori image.chans ins path = .ok out ∧
        out.rows = image.rows ∧ out.cols = image.cols ∧ out.chans = image.chans ∧
        (∀ x c : Nat, x < image.cols → c < image.chans →
          ins.pixel (path.getD x 0).toNat x c =
            Int.tdiv (image.pixel ((path.getD x 0).toNat - 1) x c +
              image.pixel (path.getD x 0).toNat x c) 2) ∧
        ∀ y x c : Nat, y < image.rows → x < image.cols → c < image.chans →
          out.pixel y x c = image.pixel y x c) := by
  constructor
  · intro hlen hp
    obtain ⟨ins, out, h, k, k1, k2, k3, k4⟩ := insert_remove_vert image path hlen hp
    obtain ⟨ins2, h2, -, -, -, i4⟩ := insert_path_vert_ok image path hlen hp
    rw [h] at h2
    cases h2
    refine ⟨ins, out, h, k, k1, k2, k3, fun y c hy hc => ?_, k4⟩
    have := hp y hy
    have e : (((path.getD y 0).toNat : Nat) : Int) = path.getD y 0 := by omega
    rw [i4 y (path.getD y 0).toNat c hy (by omega) hc, if_neg (by omega), if_pos e]
  · intro hlen hp
    obtain ⟨ins, out, h, k, k1, k2, k3, k4⟩ := insert_remove_hori image path hlen hp
    obtain ⟨ins2, h2, -, -, -, i4⟩ := insert_path_hori_ok image path hlen hp
    rw [h] at h2
    cases h2
    refine ⟨ins, out, h, k, k1, k2, k3, fun x c hx hc => ?_, k4⟩
    have := hp x hx
    have e : (((path.getD x 0).toNat : Nat) : Int) = path.getD x 0 := by omega
    rw [i4 (path.getD x 0).toNat x c (by omega) hx hc, if_neg (by omega), if_pos e]

/-- The witness of C19: the claim at the 4x4 image of 3 channels `color_image` and the path
`[1, 1, 2, 3]`, read at pixels next to the seam. -/
theorem insert_then_remove_is_identity_witness :
    (∃ ins out, insert_path_vert 3 color_image [1, 1, 2, 3] = .ok ins ∧
      remove_path_vert 3 ins [1, 1, 2, 3] = .ok out ∧
      out.rows = 4 ∧ out.cols = 4 ∧ out.chans = 3 ∧
      out.pixel 2 1 0 = color_image.pixel 2 1 0 ∧
      out.pixel 2 2 0 = color_image.pixel 2 2 0 ∧
      out.pixel 2 3 0 = color_image.pixel 2 3 0) ∧
    (∃ ins out, insert_path_hori 3 color_image [1, 1, 2, 3] = .ok ins ∧
      remove_path_hori 3 ins [1, 1, 2, 3] = .ok out ∧
      out.rows = 4 ∧ out.cols = 4 ∧ out.chans = 3 ∧
      out.pixel 1 2 0 = color_image.pixel 1 2 0 ∧
      out.pixel 2 2 0 = color_image.pixel 2 2 0 ∧
      out.pixel 3 2 0 = color_image.pixel 3 2 0) := by
  obtain ⟨ins, out, h, k, k1, k2, k3, -, k4⟩ :=
    (insert_then_remove_is_identity color_image [1, 1, 2, 3]).1 (by decide) (by decide)
  obtain ⟨ins2, out2, h2, j, j1, j2, j3, -, j4⟩ :=
    (insert_then_remove_is_identity color_image [1, 1, 2, 3]).2 (by decide) (by decide)
  exact ⟨⟨ins, out, h, k, k1, k2, k3,
      k4 2 1 0 (by decide) (by decide) (by decide),
      k4 2 2 0 (by decide) (by decide) (by decide),
      k4 2 3 0 (by decide) (by decide) (by decide)⟩,
    ⟨ins2, out2, h2, j, j1, j2, j3,
      j4 1 2 0 (by decide) (by decide) (by decide),
      j4 2 2 0 (by decide) (by decide) (by decide),
      j4 3 2 0 (by decide) (by decide) (by decide)⟩⟩

/-! ## 32-bit accumulation -/

end SeamCarving
